import Mathlib

/-!
# Verification of the citation–reference consistency and renumbering engine

Shallow embedding, in Lean 4, of the core algorithms of the repository:

* `Referencenumvalidation.py` — numeric citation validation and renumbering
  (`get_numbers`, `format_numbers`, `ReferenceProcessor.get_citations_in_text`,
  `get_references_in_bibliography`, `find_duplicates`, `get_validation_stats`,
  `renumber`, `process_document`);
* `ReferenceAPAValidation.py` — name-year citation validation
  (`normalize_citation_key`, `normalize_text_for_comparison`,
  `check_smart_match`, `check_spelling_mismatch`, `check_et_al_misuse`,
  `get_citation_matches`, the unresolved-citation diagnosis order of
  `validate_document`, and `find_duplicates`);
* the parts of Python's `difflib.SequenceMatcher` that both files invoke
  (`ratio`, `quick_ratio`, `real_quick_ratio`, with `isjunk = None`).

Python strings are modelled as `List Char` (ASCII character classes),
Python `int` as `Int`, floats as exact rationals `ℚ`, dictionaries as
association lists preserving insertion order, and sets as `Finset`.
Functions that the Python source defines by loops with early exits are
written as structural recursions over the same data, with explicit fuel
where the Python loop is not structurally decreasing; fuel arguments are
instantiated with a provably sufficient bound at the wrapper.
-/

namespace RefEngine

/-! ## Character classes (ASCII model of Python's regex classes) -/

/-- Python `\s` (ASCII range): space, tab, newline, CR, vertical tab, form feed. -/
def isPySpace (c : Char) : Bool :=
  c = ' ' || c = '\t' || c = '\n' || c = '\r' || c = '\x0b' || c = '\x0c'

/-- Python `\d` (ASCII): decimal digit. -/
def isPyDigit (c : Char) : Bool :=
  '0' ≤ c && c ≤ '9'

/-- Python `\w` (ASCII): letters, digits, underscore. -/
def isPyWord (c : Char) : Bool :=
  ('a' ≤ c && c ≤ 'z') || ('A' ≤ c && c ≤ 'Z') || isPyDigit c || c = '_'

/-- The three dash characters accepted by the citation regexes:
hyphen, en dash, em dash (`[-–—]`). -/
def isDash (c : Char) : Bool :=
  c = '-' || c = '–' || c = '—'

/-- Python `str.strip()` on the ASCII model: drop leading and trailing whitespace. -/
def pyStrip (l : List Char) : List Char :=
  (l.dropWhile isPySpace).reverse.dropWhile isPySpace |>.reverse

/-- Python `str.lower()` on the ASCII model. -/
def pyLower (l : List Char) : List Char :=
  l.map Char.toLower

/-! ## Decimal digits: value and printing

`int(s)` on a digit string, and `str(n)` / f-string rendering of an `Int`. -/

/-- Value of a list of decimal digit characters, most significant first
(the effect of Python's `int` on the digit strings captured by `\d+`). -/
def digitsVal (l : List Char) : Nat :=
  l.foldl (fun a c => 10 * a + (c.toNat - '0'.toNat)) 0

/-- Decimal digit character for `d < 10`. -/
def digitChar (d : Nat) : Char :=
  Char.ofNat ('0'.toNat + d)

/-- Decimal digits of a natural number, most significant first
(auxiliary, fuel = number itself). -/
def natToCharsAux : Nat → Nat → List Char
  | 0, _ => []
  | f + 1, n =>
    if n < 10 then [digitChar n]
    else natToCharsAux f (n / 10) ++ [digitChar (n % 10)]

/-- `str(n)` for a natural number. -/
def natToChars (n : Nat) : List Char :=
  natToCharsAux (n + 1) n

/-- `str(n)` for a Python integer (f-string rendering used by `format_numbers`). -/
def intToChars (n : Int) : List Char :=
  if n < 0 then '-' :: natToChars n.natAbs else natToChars n.toNat

/-! ## `get_numbers` (Referencenumvalidation.py lines 40–63)

`re.findall` over the pattern `(\d+)\s*[-–—]\s*(\d+)|(\d+)`: leftmost
non-overlapping matches; at each position the range alternative is tried
first, and on failure the single-number alternative consumes just the
first digit run.  A matched range `s-e` expands to `[s..e]` when `s ≤ e`
and contributes nothing otherwise (but is still consumed). -/

/-- Maximal leading run of decimal digits and the remainder. -/
def takeDigits : List Char → List Char × List Char
  | [] => ([], [])
  | c :: cs =>
    if isPyDigit c then
      let p := takeDigits cs
      (c :: p.1, p.2)
    else ([], c :: cs)

/-- The inclusive integer range `[s..e]` as a list (empty when `s > e`),
mirroring `range(s, e + 1)`. -/
def rangeList (s e : Int) : List Int :=
  (List.range (e + 1 - s).toNat).map (fun i => s + Int.ofNat i)

/-- One step of the `get_numbers` scanner, consuming positions from the
front; `fuel` bounds the number of characters ever inspected. -/
def getNumbersAux : Nat → List Char → List Int
  | 0, _ => []
  | _ + 1, [] => []
  | fuel + 1, c :: cs =>
    if isPyDigit c then
      -- first digit run (regex group 1 or 3)
      let p1 := takeDigits (c :: cs)
      let v1 : Int := digitsVal p1.1
      -- try the range alternative: `\s*[-–—]\s*\d+`
      let r2 := p1.2.dropWhile isPySpace
      match r2 with
      | d :: r3 =>
        if isDash d then
          let r4 := r3.dropWhile isPySpace
          let p2 := takeDigits r4
          if p2.1.isEmpty then
            -- range alternative fails: single match consumes only the digits
            v1 :: getNumbersAux fuel p1.2
          else
            rangeList v1 (digitsVal p2.1) ++ getNumbersAux fuel p2.2
        else v1 :: getNumbersAux fuel p1.2
      | [] => v1 :: getNumbersAux fuel p1.2
    else getNumbersAux fuel cs

/-- `get_numbers(text)`: extract all numbers and expanded ranges from a text. -/
def getNumbers (l : List Char) : List Int :=
  getNumbersAux l.length l

/-- `get_numbers` on a Lean `String`. -/
def getNumbersS (s : String) : List Int :=
  getNumbers s.toList

/-! ## `format_numbers` (Referencenumvalidation.py lines 66–102) -/

/-- `sorted(l)` for a list of integers (insertion sort; on integers any
correct sort agrees with Python's). -/
def sortInts (l : List Int) : List Int :=
  List.insertionSort (· ≤ ·) l

/-- `sorted(set(nums))`: sort of the deduplicated list. -/
def sortedDedup (l : List Int) : List Int :=
  sortInts l.dedup

/-- The run-splitting loop of `format_numbers`: starting from a current run
`[start..prev]`, split the remaining (sorted) numbers into maximal runs of
consecutive integers, returned as `(start, prev)` pairs. -/
def runsAux (start prev : Int) : List Int → List (Int × Int)
  | [] => [(start, prev)]
  | n :: rest =>
    if n = prev + 1 then runsAux start n rest
    else (start, prev) :: runsAux n n rest

/-- Render one run: `a-b` for length ≥ 3, `a,b` for length 2, `a` alone. -/
def renderRun (p : Int × Int) : List Char :=
  let len := p.2 - p.1 + 1
  if len ≥ 3 then intToChars p.1 ++ '-' :: intToChars p.2
  else if len = 2 then intToChars p.1 ++ ',' :: intToChars p.2
  else intToChars p.1

/-- `", ".join(parts)`. -/
def joinParts : List (List Char) → List Char
  | [] => []
  | [p] => p
  | p :: q :: ps => p ++ ',' :: ' ' :: joinParts (q :: ps)

/-- `format_numbers(nums)`: sort, deduplicate, collapse runs, join. -/
def formatNumbers (nums : List Int) : List Char :=
  match sortedDedup nums with
  | [] => []
  | h :: t => joinParts ((runsAux h h t).map renderRun)

/-- `format_numbers` producing a Lean `String`. -/
def formatNumbersS (nums : List Int) : String :=
  String.mk (formatNumbers nums)

/-! ## Lemmas: decimal printing -/

theorem digitChar_toNat {m : Nat} (h : m < 10) : (digitChar m).toNat = 48 + m := by
  interval_cases m <;> decide

theorem isPyDigit_digitChar {m : Nat} (h : m < 10) : isPyDigit (digitChar m) = true := by
  interval_cases m <;> decide

theorem digitsVal_append_singleton (A : List Char) (c : Char) :
    digitsVal (A ++ [c]) = 10 * digitsVal A + (c.toNat - '0'.toNat) := by
  simp [digitsVal, List.foldl_append]

theorem natToCharsAux_spec :
    ∀ fuel n, n < fuel →
      natToCharsAux fuel n ≠ [] ∧ (∀ c ∈ natToCharsAux fuel n, isPyDigit c = true) ∧
      digitsVal (natToCharsAux fuel n) = n := by
  intro fuel
  induction fuel with
  | zero => intro n h; omega
  | succ f ih =>
    intro n h
    by_cases h10 : n < 10
    · refine ⟨by simp [natToCharsAux, h10], ?_, ?_⟩
      · intro c hc
        simp [natToCharsAux, h10] at hc
        subst hc; exact isPyDigit_digitChar h10
      · simp [natToCharsAux, h10, digitsVal, digitChar_toNat h10]
    · have hdiv : n / 10 < f := by omega
      obtain ⟨hne, hdig, hval⟩ := ih (n / 10) hdiv
      have hm : n % 10 < 10 := Nat.mod_lt _ (by omega)
      refine ⟨by simp [natToCharsAux, h10], ?_, ?_⟩
      · intro c hc
        simp only [natToCharsAux, h10, if_false, List.mem_append, List.mem_singleton] at hc
        rcases hc with hc | hc
        · exact hdig c hc
        · subst hc; exact isPyDigit_digitChar hm
      · simp only [natToCharsAux, h10, if_false]
        rw [digitsVal_append_singleton, hval, digitChar_toNat hm]
        have h0 : '0'.toNat = 48 := rfl
        rw [h0]
        omega

theorem natToChars_ne_nil (n : Nat) : natToChars n ≠ [] :=
  (natToCharsAux_spec (n + 1) n (Nat.lt_succ_self n)).1

theorem natToChars_digits (n : Nat) : ∀ c ∈ natToChars n, isPyDigit c = true :=
  (natToCharsAux_spec (n + 1) n (Nat.lt_succ_self n)).2.1

theorem digitsVal_natToChars (n : Nat) : digitsVal (natToChars n) = n :=
  (natToCharsAux_spec (n + 1) n (Nat.lt_succ_self n)).2.2

/-! ## Lemmas: the `get_numbers` scanner -/

theorem takeDigits_append (A rest : List Char) (hA : ∀ c ∈ A, isPyDigit c = true)
    (hr : ∀ c, rest.head? = some c → isPyDigit c = false) :
    takeDigits (A ++ rest) = (A, rest) := by
  induction A with
  | nil =>
    cases rest with
    | nil => rfl
    | cons c cs => simp [takeDigits, hr c rfl]
  | cons a A ih =>
    have ha : isPyDigit a = true := hA a (by simp)
    have := ih (fun c hc => hA c (by simp [hc]))
    simp [takeDigits, ha, this]

theorem takeDigits_snd_length : ∀ l : List Char, (takeDigits l).2.length ≤ l.length := by
  intro l
  induction l with
  | nil => simp [takeDigits]
  | cons c cs ih =>
    by_cases hc : isPyDigit c
    · simp only [takeDigits, hc, if_true]
      exact Nat.le_succ_of_le ih
    · simp [takeDigits, hc]

theorem length_dropWhile_le (p : Char → Bool) (l : List Char) :
    (l.dropWhile p).length ≤ l.length :=
  (List.dropWhile_sublist p).length_le

theorem getNumbersAux_nil (f : Nat) : getNumbersAux f [] = [] := by
  cases f <;> rfl

theorem getNumbersAux_congr :
    ∀ (n f₁ f₂ : Nat) (l : List Char), l.length ≤ n → l.length ≤ f₁ → l.length ≤ f₂ →
      getNumbersAux f₁ l = getNumbersAux f₂ l := by
  intro n
  induction n with
  | zero =>
    intro f₁ f₂ l hn _ _
    have : l = [] := List.eq_nil_of_length_eq_zero (Nat.le_zero.mp hn)
    subst this
    rw [getNumbersAux_nil, getNumbersAux_nil]
  | succ n ih =>
    intro f₁ f₂ l hn h₁ h₂
    match l with
    | [] => rw [getNumbersAux_nil, getNumbersAux_nil]
    | c :: cs =>
      match f₁, f₂ with
      | g₁ + 1, g₂ + 1 =>
        have hcs : cs.length ≤ n := by simpa using hn
        have hcs₁ : cs.length ≤ g₁ := by simpa using h₁
        have hcs₂ : cs.length ≤ g₂ := by simpa using h₂
        cases hc : isPyDigit c with
        | true =>
          have hp1 : (takeDigits (c :: cs)).2.length ≤ cs.length := by
            simp only [takeDigits, hc, if_true]
            exact takeDigits_snd_length cs
          simp only [getNumbersAux, hc, if_true]
          cases hr2 : (takeDigits (c :: cs)).2.dropWhile isPySpace with
          | nil =>
            rw [ih g₁ g₂ _ (le_trans hp1 hcs) (le_trans hp1 hcs₁) (le_trans hp1 hcs₂)]
          | cons d r3 =>
            have hr3 : r3.length < (takeDigits (c :: cs)).2.length := by
              have hle := length_dropWhile_le isPySpace (takeDigits (c :: cs)).2
              rw [hr2] at hle
              simp only [List.length_cons] at hle
              omega
            cases hd : isDash d with
            | true =>
              have hp2 : (takeDigits (r3.dropWhile isPySpace)).2.length ≤ r3.length :=
                le_trans (takeDigits_snd_length _) (length_dropWhile_le _ _)
              have hlt : (takeDigits (r3.dropWhile isPySpace)).2.length ≤ cs.length := by
                omega
              simp only [hd, if_true]
              cases he : (takeDigits (r3.dropWhile isPySpace)).1.isEmpty with
              | true =>
                simp only [he, if_true]
                rw [ih g₁ g₂ _ (le_trans hp1 hcs) (le_trans hp1 hcs₁) (le_trans hp1 hcs₂)]
              | false =>
                simp only [he, Bool.false_eq_true, if_false]
                rw [ih g₁ g₂ _ (le_trans hlt hcs) (le_trans hlt hcs₁) (le_trans hlt hcs₂)]
            | false =>
              simp only [hd, Bool.false_eq_true, if_false]
              rw [ih g₁ g₂ _ (le_trans hp1 hcs) (le_trans hp1 hcs₁) (le_trans hp1 hcs₂)]
        | false =>
          simp only [getNumbersAux, hc, Bool.false_eq_true, if_false]
          exact ih g₁ g₂ cs hcs hcs₁ hcs₂

theorem getNumbersAux_eq (f : Nat) (l : List Char) (h : l.length ≤ f) :
    getNumbersAux f l = getNumbers l :=
  getNumbersAux_congr l.length f l.length l le_rfl h le_rfl

theorem getNumbers_nil : getNumbers [] = [] := rfl

/-- Scanning a digit run followed by text that neither starts with a digit
nor (after leading whitespace) with a dash yields the run's value and then
the scan of the remainder. -/
theorem scan_digits (A : List Char) (hne : A ≠ []) (hd : ∀ c ∈ A, isPyDigit c = true)
    (rest : List Char)
    (h1 : ∀ c, rest.head? = some c → isPyDigit c = false)
    (h2 : ∀ c, (rest.dropWhile isPySpace).head? = some c → isDash c = false) :
    getNumbers (A ++ rest) = (digitsVal A : Int) :: getNumbers rest := by
  cases A with
  | nil => exact absurd rfl hne
  | cons a A' =>
    have ha : isPyDigit a = true := hd a (by simp)
    have htd : takeDigits ((a :: A') ++ rest) = (a :: A', rest) :=
      takeDigits_append _ _ hd h1
    rw [List.cons_append] at htd
    show getNumbersAux ((a :: A' ++ rest).length) (a :: (A' ++ rest)) = _
    have hlen : (a :: A' ++ rest).length = (A' ++ rest).length + 1 := by simp
    rw [hlen]
    simp only [getNumbersAux, ha, if_true, htd]
    have hrest : rest.length ≤ (A' ++ rest).length := by simp
    cases hr2 : rest.dropWhile isPySpace with
    | nil => rw [getNumbersAux_eq _ _ hrest]
    | cons d r3 =>
      have : isDash d = false := h2 d (by rw [hr2]; rfl)
      simp only [this, Bool.false_eq_true, if_false]
      rw [getNumbersAux_eq _ _ hrest]

/-- Scanning `A-B` (two digit runs around a dash) followed by benign text
yields the expanded range and then the scan of the remainder. -/
theorem scan_range (A B : List Char)
    (hAne : A ≠ []) (hAd : ∀ c ∈ A, isPyDigit c = true)
    (hBne : B ≠ []) (hBd : ∀ c ∈ B, isPyDigit c = true)
    (rest : List Char)
    (h1 : ∀ c, rest.head? = some c → isPyDigit c = false) :
    getNumbers (A ++ ('-' :: (B ++ rest))) =
      rangeList (digitsVal A) (digitsVal B) ++ getNumbers rest := by
  cases A with
  | nil => exact absurd rfl hAne
  | cons a A' =>
    have ha : isPyDigit a = true := hAd a (by simp)
    have htd : takeDigits ((a :: A') ++ ('-' :: (B ++ rest))) = (a :: A', '-' :: (B ++ rest)) := by
      refine takeDigits_append _ _ hAd ?_
      intro c hc
      simp only [List.head?_cons, Option.some.injEq] at hc
      subst hc; rfl
    rw [List.cons_append] at htd
    show getNumbersAux (((a :: A') ++ ('-' :: (B ++ rest))).length)
      (a :: (A' ++ ('-' :: (B ++ rest)))) = _
    have hlen : ((a :: A') ++ ('-' :: (B ++ rest))).length =
        (A' ++ ('-' :: (B ++ rest))).length + 1 := by simp
    rw [hlen]
    simp only [getNumbersAux, ha, if_true, htd]
    have hdw : ('-' :: (B ++ rest)).dropWhile isPySpace = '-' :: (B ++ rest) := by
      rw [List.dropWhile_cons_of_neg (by decide)]
    simp only [hdw, show isDash '-' = true from rfl, if_true]
    have hdwB : (B ++ rest).dropWhile isPySpace = B ++ rest := by
      cases B with
      | nil => exact absurd rfl hBne
      | cons b B' =>
        have hb : isPyDigit b = true := hBd b (by simp)
        rw [List.cons_append, List.dropWhile_cons_of_neg]
        intro hsp
        have hsp' : isPySpace b = true := hsp
        have : ¬ isPyDigit b = true := by
          simp only [isPySpace, Bool.or_eq_true, decide_eq_true_eq] at hsp'
          rcases hsp' with ((((rfl | rfl) | rfl) | rfl) | rfl) | rfl <;> decide
        exact absurd hb this
    rw [hdwB]
    have htdB : takeDigits (B ++ rest) = (B, rest) := takeDigits_append _ _ hBd h1
    simp only [htdB]
    have : B.isEmpty = false := by cases B with | nil => exact absurd rfl hBne | cons _ _ => rfl
    simp only [this, Bool.false_eq_true, if_false]
    have hrest : rest.length ≤ (A' ++ ('-' :: (B ++ rest))).length := by simp; omega
    rw [getNumbersAux_eq _ _ hrest]

/-- Scanning past a single non-digit character. -/
theorem scan_skip (c : Char) (hc : isPyDigit c = false) (l : List Char) :
    getNumbers (c :: l) = getNumbers l := by
  show getNumbersAux (c :: l).length (c :: l) = _
  rw [show (c :: l).length = l.length + 1 from rfl]
  simp only [getNumbersAux, hc, Bool.false_eq_true, if_false]
  rfl

/-! ## Lemmas: `rangeList` -/

theorem rangeList_self (a : Int) : rangeList a a = [a] := by
  have h : (a + 1 - a).toNat = 1 := by omega
  have h1 : List.range 1 = [0] := rfl
  rw [rangeList, h, h1]
  simp

theorem rangeList_succ (s e : Int) (h : s ≤ e + 1) : rangeList s (e + 1) = rangeList s e ++ [e + 1] := by
  unfold rangeList
  have h1 : (e + 1 + 1 - s).toNat = (e + 1 - s).toNat + 1 := by omega
  rw [h1, List.range_succ, List.map_append]
  congr 1
  simp only [List.map_cons, List.map_nil]
  congr 1
  simp only [Int.ofNat_eq_coe]
  omega

theorem rangeList_two (a : Int) : rangeList a (a + 1) = [a, a + 1] := by
  rw [rangeList_succ a a (by omega), rangeList_self]
  rfl

/-! ## Lemmas: rendering and re-parsing of runs -/

/-- The remainder conditions that hold after every rendered run: the rest of
the text is empty or starts with a comma. -/
theorem restCond (rest : List Char) (h : rest = [] ∨ rest.head? = some ',') :
    (∀ c, rest.head? = some c → isPyDigit c = false) ∧
    (∀ c, (rest.dropWhile isPySpace).head? = some c → isDash c = false) := by
  rcases h with h | h
  · subst h
    refine ⟨?_, ?_⟩
    · intro c hc; simp at hc
    · intro c hc; simp [List.dropWhile] at hc
  · cases rest with
    | nil => cases h
    | cons x t =>
      have hx : x = ',' := by simpa using h
      subst hx
      refine ⟨?_, ?_⟩
      · intro c hc
        simp only [List.head?_cons, Option.some.injEq] at hc
        subst hc; rfl
      · intro c hc
        rw [List.dropWhile_cons_of_neg (by decide)] at hc
        simp only [List.head?_cons, Option.some.injEq] at hc
        subst hc; rfl

theorem intToChars_nonneg (a : Int) (h : 0 ≤ a) : intToChars a = natToChars a.toNat := by
  simp [intToChars, not_lt.mpr h]

theorem scan_natToChars (n : Nat) (rest : List Char)
    (h1 : ∀ c, rest.head? = some c → isPyDigit c = false)
    (h2 : ∀ c, (rest.dropWhile isPySpace).head? = some c → isDash c = false) :
    getNumbers (natToChars n ++ rest) = (n : Int) :: getNumbers rest := by
  rw [scan_digits _ (natToChars_ne_nil n) (natToChars_digits n) rest h1 h2,
    digitsVal_natToChars]

/-- Parsing one rendered run followed by `[]` or a `", "`-separated tail. -/
theorem scan_renderRun (a b : Int) (ha : 0 ≤ a) (hab : a ≤ b) (rest : List Char)
    (h : rest = [] ∨ rest.head? = some ',') :
    getNumbers (renderRun (a, b) ++ rest) = rangeList a b ++ getNumbers rest := by
  obtain ⟨h1, h2⟩ := restCond rest h
  have hb : 0 ≤ b := le_trans ha hab
  have hcoea : ((a.toNat : Int)) = a := Int.toNat_of_nonneg ha
  have hcoeb : ((b.toNat : Int)) = b := Int.toNat_of_nonneg hb
  by_cases h3 : b - a + 1 ≥ 3
  · -- run of length ≥ 3: rendered as `a-b`
    have hr : renderRun (a, b) = intToChars a ++ '-' :: intToChars b := by
      simp [renderRun, h3]
    rw [hr, intToChars_nonneg a ha, intToChars_nonneg b hb, List.append_assoc,
      List.cons_append]
    rw [scan_range _ _ (natToChars_ne_nil _) (natToChars_digits _)
      (natToChars_ne_nil _) (natToChars_digits _) rest h1]
    rw [digitsVal_natToChars, digitsVal_natToChars, hcoea, hcoeb]
  · by_cases h4 : b - a + 1 = 2
    · -- run of length 2: rendered as `a,b` with b = a + 1
      have hba : b = a + 1 := by omega
      have : renderRun (a, b) = intToChars a ++ ',' :: intToChars b := by
        simp [renderRun, h3, h4]
      rw [this, intToChars_nonneg a ha, intToChars_nonneg b hb, List.append_assoc,
        List.cons_append]
      rw [scan_natToChars a.toNat (',' :: (natToChars b.toNat ++ rest))
        (by intro c hc; cases hc; rfl)
        (by
          intro c hc
          rw [List.dropWhile_cons_of_neg (by decide)] at hc
          cases hc; rfl)]
      rw [scan_skip ',' rfl, scan_natToChars b.toNat rest h1 h2, hcoea, hcoeb, hba,
        rangeList_two]
      rfl
    · -- singleton run: b = a, rendered as `a`
      have hba : b = a := by omega
      have : renderRun (a, b) = intToChars a := by
        simp [renderRun, h3, h4]
      rw [this, intToChars_nonneg a ha,
        scan_natToChars a.toNat rest h1 h2, hcoea, hba, rangeList_self]
      rfl

theorem joinParts_cons_cons (p q : List Char) (ps : List (List Char)) :
    joinParts (p :: q :: ps) = p ++ ',' :: ' ' :: joinParts (q :: ps) := rfl

/-- Parsing the full `", "`-join of rendered runs recovers the concatenation
of the corresponding ranges. -/
theorem scan_joinRuns :
    ∀ rs : List (Int × Int), (∀ p ∈ rs, 0 ≤ p.1 ∧ p.1 ≤ p.2) →
      getNumbers (joinParts (rs.map renderRun)) =
        rs.flatMap (fun p => rangeList p.1 p.2) := by
  intro rs
  induction rs with
  | nil => intro _; rfl
  | cons p rs ih =>
    intro h
    obtain ⟨hp1, hp2⟩ := h p (by simp)
    cases rs with
    | nil =>
      have hj : joinParts [renderRun p] = renderRun p ++ [] := by simp [joinParts]
      rw [List.map_cons, List.map_nil, hj,
        scan_renderRun p.1 p.2 hp1 hp2 [] (Or.inl rfl)]
      simp [getNumbers_nil]
    | cons q rs' =>
      simp only [List.map_cons]
      rw [joinParts_cons_cons, scan_renderRun p.1 p.2 hp1 hp2
          (',' :: ' ' :: joinParts (renderRun q :: List.map renderRun rs')) (Or.inr rfl),
        scan_skip ',' rfl, scan_skip ' ' rfl]
      have hih := ih (fun r hr => h r (by simp [hr]))
      simp only [List.map_cons] at hih
      rw [hih]
      simp

/-! ## Lemmas: the run-splitting loop -/

theorem runsAux_flatten :
    ∀ (t : List Int) (start prev : Int), start ≤ prev →
      List.Chain' (· < ·) (prev :: t) →
      (runsAux start prev t).flatMap (fun p => rangeList p.1 p.2) =
        rangeList start prev ++ t := by
  intro t
  induction t with
  | nil => intro start prev _ _; simp [runsAux]
  | cons n rest ih =>
    intro start prev hsp hch
    have hlt : prev < n := List.chain'_cons.mp hch |>.1
    have hch' : List.Chain' (· < ·) (n :: rest) := List.chain'_cons.mp hch |>.2
    by_cases hn : n = prev + 1
    · subst hn
      rw [runsAux, if_pos rfl, ih start (prev + 1) (by omega) hch',
        rangeList_succ start prev (by omega)]
      simp
    · rw [runsAux, if_neg hn]
      simp only [List.flatMap_cons]
      rw [ih n n le_rfl hch', rangeList_self]
      simp

theorem runsAux_bounds :
    ∀ (t : List Int) (start prev : Int), 0 ≤ start → start ≤ prev →
      List.Chain' (· < ·) (prev :: t) →
      ∀ p ∈ runsAux start prev t, 0 ≤ p.1 ∧ p.1 ≤ p.2 := by
  intro t
  induction t with
  | nil =>
    intro start prev h0 hsp _ p hp
    simp only [runsAux, List.mem_singleton] at hp
    subst hp; exact ⟨h0, hsp⟩
  | cons n rest ih =>
    intro start prev h0 hsp hch p hp
    have hlt : prev < n := List.chain'_cons.mp hch |>.1
    have hch' : List.Chain' (· < ·) (n :: rest) := List.chain'_cons.mp hch |>.2
    by_cases hn : n = prev + 1
    · subst hn
      rw [runsAux, if_pos rfl] at hp
      exact ih start (prev + 1) h0 (by omega) hch' p hp
    · rw [runsAux, if_neg hn] at hp
      rcases List.mem_cons.mp hp with hp | hp
      · subst hp; exact ⟨h0, hsp⟩
      · exact ih n n (by omega) le_rfl hch' p hp

/-! ## `sorted(set · )` on an already strictly sorted list -/

theorem sortedDedup_of_sorted (l : List Int) (h : l.Sorted (· < ·)) :
    sortedDedup l = l := by
  have hnd : l.Nodup := h.imp (fun hab => ne_of_lt hab)
  unfold sortedDedup sortInts
  rw [List.dedup_eq_self.mpr hnd]
  exact List.Sorted.insertionSort_eq (h.imp (fun hab => le_of_lt hab))

/-! ## Claim C3 -/

/-- The claim of C3 as stated, specialised at the strictly increasing list
`[-1]`: `format_numbers [-1]` renders `"-1"`, which `get_numbers` re-parses
as `[1]` (the minus sign is not part of the `\d+` token), so the round-trip
fails for negative integers. -/
theorem c3_counterexample :
    List.Sorted (· < ·) [(-1 : Int)] ∧
      getNumbers (formatNumbers [(-1 : Int)]) ≠ [(-1 : Int)] := by
  constructor
  · simp
  · decide

/-- C3 (amended: the round-trip law holds for strictly increasing lists of
non-negative integers; for negative entries the minus sign is lost on
re-parsing, see `c3_counterexample`).  `format_numbers` collapses runs of
three or more consecutive integers into `a-b`, runs of exactly two into
`a,b`, keeps singletons, joins runs with `", "`;
`format_numbers (get_numbers "1, 2, 3, 5") = "1-3, 5"`; and for every
strictly increasing list of non-negative integers `ids`,
`get_numbers (format_numbers ids) = ids = sorted ids` (the round-trip is
lossless; non-contiguous numbers are never merged). -/
theorem c3_roundtrip :
    formatNumbersS (getNumbersS "1, 2, 3, 5") = "1-3, 5" ∧
    ∀ ids : List Int, List.Sorted (· < ·) ids → (∀ x ∈ ids, 0 ≤ x) →
      getNumbers (formatNumbers ids) = ids := by
  constructor
  · rfl
  · intro ids hsorted hnn
    have hsd : sortedDedup ids = ids := sortedDedup_of_sorted ids hsorted
    unfold formatNumbers
    rw [hsd]
    cases ids with
    | nil => rfl
    | cons h t =>
      have hch : List.Chain' (· < ·) (h :: t) := hsorted.chain'
      have h0 : 0 ≤ h := hnn h (by simp)
      rw [scan_joinRuns _ (runsAux_bounds t h h h0 le_rfl hch),
        runsAux_flatten t h h le_rfl hch, rangeList_self]
      rfl

/-- Witness: the amended round-trip at the concrete input `[1, 2, 3, 5]`. -/
theorem c3_roundtrip_witness :
    getNumbers (formatNumbers [(1 : Int), 2, 3, 5]) = [(1 : Int), 2, 3, 5] :=
  c3_roundtrip.2 [1, 2, 3, 5] (by decide) (by decide)

/-!
## `difflib.SequenceMatcher` (CPython, with `isjunk = None`)

Both call sites construct `SequenceMatcher(None, a, b)`, so the caller junk
set `bjunk` is always empty: in `find_longest_match` the first pair of
extension `while` loops degenerates to plain character-equality extension
and the second pair (junk extension) never runs.  Autojunk is active: when
`len(b) >= 200`, characters occurring more than `len(b)//100 + 1` times are
dropped from the `b2j` position table (they remain visible to the extension
loops and to `quick_ratio`, exactly as in CPython).
-/

namespace Difflib

/-- Ascending positions of `c` in `b` (one chain of the `b2j` table). -/
def positions (b : List Char) (c : Char) : List Nat :=
  (List.range b.length).filter (fun j => b[j]? = some c)

/-- The autojunk rule of `SequenceMatcher.__chain_b`. -/
def isPopular (b : List Char) (c : Char) : Bool :=
  b.length ≥ 200 && b.count c > b.length / 100 + 1

/-- `b2j[c]`: positions of `c` in `b`, with popular characters dropped. -/
def b2j (b : List Char) (c : Char) : List Nat :=
  if isPopular b c then [] else positions b c

/-- Lookup in the `j2len` association table (`dict.get(key, 0)`). -/
def lookupD (m : List (Nat × Nat)) (k : Nat) : Nat :=
  match m.find? (fun p => p.1 = k) with
  | some p => p.2
  | none => 0

/-- Inner loop of `find_longest_match`: walk the (filtered) `b`-positions of
`a[i]`, building the new `j2len` row and updating the best block.  The
`j = 0` case mirrors `j2len.get(-1, 0) = 0`. -/
def flmInner (j2lenOld : List (Nat × Nat)) (i : Nat) :
    List Nat → List (Nat × Nat) → Nat × Nat × Nat → List (Nat × Nat) × (Nat × Nat × Nat)
  | [], new, best => (new, best)
  | j :: js, new, (bi, bj, bs) =>
    let k := (if j = 0 then 0 else lookupD j2lenOld (j - 1)) + 1
    let new' := (j, k) :: new
    if k > bs then flmInner j2lenOld i js new' (i + 1 - k, j + 1 - k, k)
    else flmInner j2lenOld i js new' (bi, bj, bs)

/-- Outer loop of `find_longest_match` over `i = alo, alo+1, …` (`n` steps).
Indexing `a.getD i ' '` models `a[i]`, which CPython only evaluates for
`i < len(a)`. -/
def flmOuter (a b : List Char) (blo bhi : Nat) :
    Nat → Nat → List (Nat × Nat) → Nat × Nat × Nat → Nat × Nat × Nat
  | _, 0, _, best => best
  | i, n + 1, j2len, best =>
    let js := (b2j b (a.getD i ' ')).filter (fun j => blo ≤ j && j < bhi)
    let r := flmInner j2len i js [] best
    flmOuter a b blo bhi (i + 1) n r.1 r.2

/-- Character equality through optional indexing. -/
def chEq (x y : Option Char) : Bool :=
  match x, y with
  | some c, some d => c = d
  | _, _ => false

/-- `while besti > alo and bestj > blo and a[besti-1] == b[bestj-1]`
(the junk test is vacuous with `isjunk = None`). -/
def extendLeft (a b : List Char) (alo blo : Nat) :
    Nat → Nat × Nat × Nat → Nat × Nat × Nat
  | 0, st => st
  | f + 1, (bi, bj, bs) =>
    if alo < bi && blo < bj && chEq (a[bi - 1]?) (b[bj - 1]?) then
      extendLeft a b alo blo f (bi - 1, bj - 1, bs + 1)
    else (bi, bj, bs)

/-- `while besti+bestsize < ahi and bestj+bestsize < bhi and
a[besti+bestsize] == b[bestj+bestsize]`. -/
def extendRight (a b : List Char) (ahi bhi : Nat) :
    Nat → Nat × Nat × Nat → Nat × Nat × Nat
  | 0, st => st
  | f + 1, (bi, bj, bs) =>
    if bi + bs < ahi && bj + bs < bhi && chEq (a[bi + bs]?) (b[bj + bs]?) then
      extendRight a b ahi bhi f (bi, bj, bs + 1)
    else (bi, bj, bs)

/-- `find_longest_match(alo, ahi, blo, bhi)`.  The extension loops run at
most `a.length` times, so that fuel is sufficient. -/
def findLongestMatch (a b : List Char) (alo ahi blo bhi : Nat) : Nat × Nat × Nat :=
  let best := flmOuter a b blo bhi alo (ahi - alo) [] (alo, blo, 0)
  let best := extendLeft a b alo blo a.length best
  extendRight a b ahi bhi a.length best

/-- The recursive block collection of `get_matching_blocks` (CPython uses an
explicit queue, then sorts and merges adjacent blocks; the multiset of
matched positions, and hence the total matched size, is the same).  The
interval width `ahi - alo` shrinks strictly at each level, so fuel
`a.length + 1` is sufficient. -/
def matchingBlocksAux (a b : List Char) :
    Nat → Nat → Nat → Nat → Nat → List (Nat × Nat × Nat)
  | 0, _, _, _, _ => []
  | f + 1, alo, ahi, blo, bhi =>
    let t := findLongestMatch a b alo ahi blo bhi
    if t.2.2 = 0 then []
    else
      matchingBlocksAux a b f alo t.1 blo t.2.1 ++
        t :: matchingBlocksAux a b f (t.1 + t.2.2) ahi (t.2.1 + t.2.2) bhi

def matchingBlocks (a b : List Char) : List (Nat × Nat × Nat) :=
  matchingBlocksAux a b (a.length + 1) 0 a.length 0 b.length

/-- Total size of all matching blocks (the `sum(triple[-1] …)` of `ratio`). -/
def matchTotal (a b : List Char) : Nat :=
  ((matchingBlocks a b).map (fun t => t.2.2)).sum

/-- `_calculate_ratio(matches, length)`, in exact rational arithmetic. -/
def calcRatio (m len : Nat) : ℚ :=
  if len = 0 then 1 else 2 * (m : ℚ) / (len : ℚ)

/-- `SequenceMatcher.ratio()`. -/
def ratio (a b : List Char) : ℚ :=
  calcRatio (matchTotal a b) (a.length + b.length)

/-- The `avail`/`fullbcount` loop of `quick_ratio` (`bcount c` is
`fullbcount.get(c, 0)`; the head of `avail` is the latest binding). -/
def availLookup (avail : List (Char × Int)) (c : Char) (dflt : Int) : Int :=
  match avail.find? (fun q => q.1 = c) with
  | some q => q.2
  | none => dflt

def quickLoop (bcount : Char → Nat) : List Char → List (Char × Int) → Nat → Nat
  | [], _, m => m
  | c :: cs, avail, m =>
    let numb := availLookup avail c ((bcount c : Int))
    quickLoop bcount cs ((c, numb - 1) :: avail) (if 0 < numb then m + 1 else m)

/-- `SequenceMatcher.quick_ratio()`: matches when viewing `a` and `b` as
multisets. -/
def quickRatio (a b : List Char) : ℚ :=
  calcRatio (quickLoop (fun c => b.count c) a [] 0) (a.length + b.length)

/-- `SequenceMatcher.real_quick_ratio()`. -/
def realQuickRatio (a b : List Char) : ℚ :=
  calcRatio (min a.length b.length) (a.length + b.length)

/-! ### Validity of the blocks returned by `find_longest_match`

Only *validity* (the returned triple denotes an actual common substring
inside the window) is needed for the upper-bound facts below; maximality of
the block is never used. -/

/-- `k` consecutive positions from `(i, j)` carry equal characters. -/
def MatchAt (a b : List Char) (i j k : Nat) : Prop :=
  ∀ t, t < k → ∃ c, a[i + t]? = some c ∧ b[j + t]? = some c

/-- The best-block invariant for the window `[alo, ahi) × [blo, bhi)`. -/
def InvBest (a b : List Char) (alo ahi blo bhi : Nat) : Nat × Nat × Nat → Prop
  | (bi, bj, bs) =>
    alo ≤ bi ∧ blo ≤ bj ∧ bi + bs ≤ ahi ∧ bj + bs ≤ bhi ∧ MatchAt a b bi bj bs

/-- Invariant of a `j2len` row: each entry `(j, v)` denotes a common suffix
of length `v` ending at a-position `i` and b-position `j`, inside the
window. -/
def InvRow (a b : List Char) (alo blo bhi i : Nat) (row : List (Nat × Nat)) : Prop :=
  ∀ p ∈ row, 1 ≤ p.2 ∧ p.2 ≤ i + 1 - alo ∧ p.2 ≤ p.1 + 1 - blo ∧ p.1 < bhi ∧
    MatchAt a b (i + 1 - p.2) (p.1 + 1 - p.2) p.2

theorem lookupD_mem (m : List (Nat × Nat)) (k : Nat) (h : lookupD m k ≠ 0) :
    (k, lookupD m k) ∈ m := by
  unfold lookupD at *
  cases hf : m.find? (fun p => p.1 = k) with
  | none => simp only [hf] at h; exact absurd rfl h
  | some p =>
    simp only [hf] at h ⊢
    have hp : p ∈ m := List.mem_of_find?_eq_some hf
    have hk : p.1 = k := by
      have := List.find?_some hf
      simpa using this
    have : (k, p.2) = p := by rw [← hk]
    rw [this]
    exact hp

theorem chEq_some {x y : Option Char} (h : chEq x y = true) :
    ∃ c, x = some c ∧ y = some c := by
  cases x with
  | none => cases h
  | some c =>
    cases y with
    | none => cases h
    | some d =>
      have : c = d := by simpa [chEq] using h
      exact ⟨c, rfl, by rw [this]⟩

theorem matchAt_zero (a b : List Char) (i j : Nat) : MatchAt a b i j 0 := by
  intro t ht; omega

theorem flmInner_spec (a b : List Char) (alo ahi blo bhi i : Nat)
    (hialo : alo ≤ i) (hiahi : i < ahi) (ai : Char) (hai : a[i]? = some ai) :
    ∀ (js : List Nat), (∀ j ∈ js, blo ≤ j ∧ j < bhi ∧ b[j]? = some ai) →
    ∀ (old : List (Nat × Nat)), InvRow a b alo blo bhi (i - 1) old → (i = 0 → old = []) →
    ∀ (new : List (Nat × Nat)), InvRow a b alo blo bhi i new →
    ∀ best, InvBest a b alo ahi blo bhi best →
      InvRow a b alo blo bhi i (flmInner old i js new best).1 ∧
      InvBest a b alo ahi blo bhi (flmInner old i js new best).2 := by
  intro js
  induction js with
  | nil =>
    intro _ old _ _ new hnew best hbest
    exact ⟨hnew, hbest⟩
  | cons j js ih =>
    intro hjs old hold hz new hnew best hbest
    obtain ⟨hjblo, hjbhi, hbj⟩ := hjs j (by simp)
    obtain ⟨bi, bj, bs⟩ := best
    -- the new entry (j, k) is a valid suffix-match ending at (i, j)
    set w : Nat := if j = 0 then 0 else lookupD old (j - 1) with hw
    have hentry : 1 ≤ w + 1 ∧ w + 1 ≤ i + 1 - alo ∧ w + 1 ≤ j + 1 - blo ∧ j < bhi ∧
        MatchAt a b (i + 1 - (w + 1)) (j + 1 - (w + 1)) (w + 1) := by
      by_cases hw0 : w = 0
      · -- fresh match of length 1 at (i, j)
        rw [hw0]
        refine ⟨le_rfl, by omega, by omega, hjbhi, ?_⟩
        intro t ht
        have ht0 : t = 0 := by omega
        subst ht0
        exact ⟨ai, by simpa using hai, by simpa using hbj⟩
      · -- extension of the chain ending at (i-1, j-1)
        have hj0 : j ≠ 0 := by
          intro h0; rw [hw, if_pos h0] at hw0; exact hw0 rfl
        have hwl : w = lookupD old (j - 1) := by rw [hw, if_neg hj0]
        have hmem : (j - 1, w) ∈ old := by
          rw [hwl]; exact lookupD_mem old (j - 1) (by rw [← hwl]; exact hw0)
        obtain ⟨h1, h2, h3, _, h5⟩ := hold _ hmem
        have hi0 : i ≠ 0 := by
          intro h0
          rw [hz h0] at hmem
          cases hmem
        refine ⟨by omega, by omega, by omega, hjbhi, ?_⟩
        intro t ht
        by_cases htw : t < w
        · have := h5 t (by simpa using htw)
          have harith1 : i - 1 + 1 - w + t = i + 1 - (w + 1) + t := by omega
          have harith2 : j - 1 + 1 - w + t = j + 1 - (w + 1) + t := by omega
          simp only [harith1, harith2] at this
          exact this
        · have htw' : t = w := by omega
          subst htw'
          have h1' : 1 ≤ w := by simpa using h1
          have harith1 : i + 1 - (w + 1) + w = i := by omega
          have harith2 : j + 1 - (w + 1) + w = j := by omega
          rw [harith1, harith2]
          exact ⟨ai, hai, hbj⟩
    have hnew' : InvRow a b alo blo bhi i ((j, w + 1) :: new) := by
      intro p hp
      rcases List.mem_cons.mp hp with hp | hp
      · subst hp; exact hentry
      · exact hnew p hp
    show InvRow a b alo blo bhi i (flmInner old i (j :: js) new (bi, bj, bs)).1 ∧ _
    rw [flmInner]
    simp only [← hw]
    by_cases hk : w + 1 > bs
    · rw [if_pos hk]
      refine ih (fun x hx => hjs x (by simp [hx])) old hold hz _ hnew'
        (i + 1 - (w + 1), j + 1 - (w + 1), w + 1) ?_
      obtain ⟨_, e2, e3, _, e5⟩ := hentry
      exact ⟨by omega, by omega, by omega, by omega, e5⟩
    · rw [if_neg hk]
      exact ih (fun x hx => hjs x (by simp [hx])) old hold hz _ hnew' (bi, bj, bs) hbest

theorem mem_b2j (b : List Char) (c : Char) (j : Nat) (h : j ∈ b2j b c) :
    b[j]? = some c := by
  unfold b2j at h
  by_cases hp : isPopular b c
  · rw [if_pos hp] at h; cases h
  · rw [if_neg hp] at h
    unfold positions at h
    have := List.of_mem_filter h
    simpa using this

theorem flmOuter_spec (a b : List Char) (alo ahi blo bhi : Nat) (hahi : ahi ≤ a.length) :
    ∀ (n i : Nat), alo ≤ i → i + n = ahi →
    ∀ (old : List (Nat × Nat)), InvRow a b alo blo bhi (i - 1) old → (i = 0 → old = []) →
    ∀ best, InvBest a b alo ahi blo bhi best →
      InvBest a b alo ahi blo bhi (flmOuter a b blo bhi i n old best) := by
  intro n
  induction n with
  | zero => intro i _ _ old _ _ best hbest; exact hbest
  | succ n ih =>
    intro i hialo hiahi old hold hz best hbest
    have hi : i < ahi := by omega
    have hilen : i < a.length := lt_of_lt_of_le hi hahi
    have hai : a[i]? = some (a.getD i ' ') := by
      rw [List.getD_eq_getElem?_getD]
      cases hg : a[i]? with
      | none =>
        have := List.getElem?_eq_none_iff.mp hg
        omega
      | some c => rfl
    rw [flmOuter]
    have hjs : ∀ j ∈ (b2j b (a.getD i ' ')).filter (fun j => blo ≤ j && j < bhi),
        blo ≤ j ∧ j < bhi ∧ b[j]? = some (a.getD i ' ') := by
      intro j hj
      have hmem := List.mem_of_mem_filter hj
      have hcond := List.of_mem_filter hj
      simp only [Bool.and_eq_true, decide_eq_true_eq] at hcond
      exact ⟨hcond.1, hcond.2, mem_b2j b _ j hmem⟩
    have hrow0 : InvRow a b alo blo bhi i [] := by intro p hp; cases hp
    obtain ⟨hrow, hbest'⟩ :=
      flmInner_spec a b alo ahi blo bhi i hialo hi (a.getD i ' ') hai
        ((b2j b (a.getD i ' ')).filter (fun j => blo ≤ j && j < bhi)) hjs
        old hold hz [] hrow0 best hbest
    refine ih (i + 1) (by omega) (by omega) _ ?_ (by omega) _ hbest'
    simpa using hrow

theorem extendLeft_spec (a b : List Char) (alo ahi blo bhi : Nat) :
    ∀ (f : Nat) (st : Nat × Nat × Nat), InvBest a b alo ahi blo bhi st →
      InvBest a b alo ahi blo bhi (extendLeft a b alo blo f st) := by
  intro f
  induction f with
  | zero => intro st h; exact h
  | succ f ih =>
    intro st h
    obtain ⟨bi, bj, bs⟩ := st
    rw [extendLeft]
    by_cases hc : (alo < bi && blo < bj && chEq (a[bi - 1]?) (b[bj - 1]?)) = true
    · rw [if_pos hc]
      simp only [Bool.and_eq_true, decide_eq_true_eq] at hc
      obtain ⟨⟨h1, h2⟩, h3⟩ := hc
      obtain ⟨c, hca, hcb⟩ := chEq_some h3
      obtain ⟨i1, i2, i3, i4, i5⟩ := h
      refine ih (bi - 1, bj - 1, bs + 1) ⟨by omega, by omega, by omega, by omega, ?_⟩
      intro t ht
      by_cases ht0 : t = 0
      · subst ht0
        exact ⟨c, by simpa using hca, by simpa using hcb⟩
      · have := i5 (t - 1) (by omega)
        have e1 : bi + (t - 1) = bi - 1 + t := by omega
        have e2 : bj + (t - 1) = bj - 1 + t := by omega
        rw [e1, e2] at this
        exact this
    · rw [if_neg hc]
      exact h

theorem extendRight_spec (a b : List Char) (alo ahi blo bhi : Nat) :
    ∀ (f : Nat) (st : Nat × Nat × Nat), InvBest a b alo ahi blo bhi st →
      InvBest a b alo ahi blo bhi (extendRight a b ahi bhi f st) := by
  intro f
  induction f with
  | zero => intro st h; exact h
  | succ f ih =>
    intro st h
    obtain ⟨bi, bj, bs⟩ := st
    rw [extendRight]
    by_cases hc : (bi + bs < ahi && bj + bs < bhi && chEq (a[bi + bs]?) (b[bj + bs]?)) = true
    · rw [if_pos hc]
      simp only [Bool.and_eq_true, decide_eq_true_eq] at hc
      obtain ⟨⟨h1, h2⟩, h3⟩ := hc
      obtain ⟨c, hca, hcb⟩ := chEq_some h3
      obtain ⟨i1, i2, i3, i4, i5⟩ := h
      refine ih (bi, bj, bs + 1) ⟨i1, i2, by omega, by omega, ?_⟩
      intro t ht
      by_cases hts : t = bs
      · subst hts
        exact ⟨c, hca, hcb⟩
      · exact i5 t (by omega)
    · rw [if_neg hc]
      exact h

/-- The triple returned by `find_longest_match` denotes a genuine common
substring lying inside the requested window. -/
theorem findLongestMatch_valid (a b : List Char) (alo ahi blo bhi : Nat)
    (h1 : alo ≤ ahi) (h2 : ahi ≤ a.length) (h3 : blo ≤ bhi) :
    InvBest a b alo ahi blo bhi (findLongestMatch a b alo ahi blo bhi) := by
  unfold findLongestMatch
  refine extendRight_spec a b alo ahi blo bhi _ _
    (extendLeft_spec a b alo ahi blo bhi _ _
      (flmOuter_spec a b alo ahi blo bhi h2 (ahi - alo) alo le_rfl (by omega)
        [] (by intro p hp; cases hp) (fun _ => rfl) (alo, blo, 0)
        ⟨le_rfl, le_rfl, by omega, by omega, matchAt_zero a b alo blo⟩))

/-! ### From matching blocks to the multiset upper bound -/

/-- `l[lo:hi]`. -/
def slice (l : List Char) (lo hi : Nat) : List Char :=
  (l.drop lo).take (hi - lo)

theorem slice_full (l : List Char) : slice l 0 l.length = l := by
  simp [slice]

theorem slice_append (l : List Char) (lo m hi : Nat) (h1 : lo ≤ m) (h2 : m ≤ hi) :
    slice l lo hi = slice l lo m ++ slice l m hi := by
  unfold slice
  have e1 : hi - lo = (m - lo) + (hi - m) := by omega
  rw [e1, List.take_add]
  congr 1
  rw [List.drop_drop]
  congr 2
  omega

theorem slice_getElem? (l : List Char) (lo hi n : Nat) :
    (slice l lo hi)[n]? = if n < hi - lo then l[lo + n]? else none := by
  unfold slice
  by_cases h : n < hi - lo
  · rw [if_pos h, List.getElem?_take_of_lt h, List.getElem?_drop]
  · rw [if_neg h]
    refine List.getElem?_eq_none_iff.mpr ?_
    have := List.length_take (hi - lo) (l.drop lo)
    omega

theorem slice_length_of_le (l : List Char) (lo hi : Nat) (h1 : lo ≤ hi)
    (h2 : hi ≤ l.length) : (slice l lo hi).length = hi - lo := by
  unfold slice
  rw [List.length_take, List.length_drop]
  omega

/-- A valid match makes the two slices equal character-for-character. -/
theorem matchAt_slice_eq {a b : List Char} {i j k : Nat} (h : MatchAt a b i j k) :
    slice a i (i + k) = slice b j (j + k) := by
  refine List.ext_getElem?_iff.mpr ?_
  intro n
  rw [slice_getElem?, slice_getElem?]
  have ek : i + k - i = k := by omega
  have ek' : j + k - j = k := by omega
  rw [ek, ek']
  by_cases hn : n < k
  · rw [if_pos hn, if_pos hn]
    obtain ⟨c, hc1, hc2⟩ := h n hn
    rw [hc1, hc2]
  · rw [if_neg hn, if_neg hn]

/-- The slice of `a` matched by one block. -/
def blockSliceA (a : List Char) (t : Nat × Nat × Nat) : List Char :=
  slice a t.1 (t.1 + t.2.2)

/-- The slice of `b` matched by one block. -/
def blockSliceB (b : List Char) (t : Nat × Nat × Nat) : List Char :=
  slice b t.2.1 (t.2.1 + t.2.2)

theorem matchingBlocksAux_spec (a b : List Char) :
    ∀ (f alo ahi blo bhi : Nat), alo ≤ ahi → ahi ≤ a.length → blo ≤ bhi →
      List.Sublist
        ((matchingBlocksAux a b f alo ahi blo bhi).map (blockSliceA a)).flatten
        (slice a alo ahi) ∧
      List.Sublist
        ((matchingBlocksAux a b f alo ahi blo bhi).map (blockSliceB b)).flatten
        (slice b blo bhi) ∧
      ((matchingBlocksAux a b f alo ahi blo bhi).map (blockSliceA a)).flatten =
        ((matchingBlocksAux a b f alo ahi blo bhi).map (blockSliceB b)).flatten ∧
      (((matchingBlocksAux a b f alo ahi blo bhi).map (blockSliceA a)).flatten).length =
        ((matchingBlocksAux a b f alo ahi blo bhi).map (fun t => t.2.2)).sum := by
  intro f
  induction f with
  | zero =>
    intro alo ahi blo bhi _ _ _
    exact ⟨List.nil_sublist _, List.nil_sublist _, rfl, rfl⟩
  | succ f ih =>
    intro alo ahi blo bhi h1 h2 h3
    have hval := findLongestMatch_valid a b alo ahi blo bhi h1 h2 h3
    rw [matchingBlocksAux]
    revert hval
    generalize findLongestMatch a b alo ahi blo bhi = t
    intro hval
    obtain ⟨ti, tj, tk⟩ := t
    obtain ⟨v1, v2, v3, v4, v5⟩ := hval
    simp only at v3 v4 v5 ⊢
    by_cases hk : tk = 0
    · rw [if_pos hk]
      exact ⟨List.nil_sublist _, List.nil_sublist _, rfl, rfl⟩
    · rw [if_neg hk]
      obtain ⟨ihl1, ihl2, ihl3, ihl4⟩ := ih alo ti blo tj v1 (by omega) v2
      obtain ⟨ihr1, ihr2, ihr3, ihr4⟩ :=
        ih (ti + tk) ahi (tj + tk) bhi v3 h2 v4
      have hmid : blockSliceA a (ti, tj, tk) = blockSliceB b (ti, tj, tk) :=
        matchAt_slice_eq v5
      have hmidlen : (blockSliceA a (ti, tj, tk)).length = tk :=
        slice_length_of_le a ti (ti + tk) (by omega) (by omega) |>.trans (by omega)
      have hsplitA : slice a alo ahi = slice a alo ti ++ (blockSliceA a (ti, tj, tk) ++
          slice a (ti + tk) ahi) := by
        simp only [blockSliceA]
        rw [← slice_append a ti (ti + tk) ahi (by omega) v3]
        exact slice_append a alo ti ahi v1 (by omega)
      have hsplitB : slice b blo bhi = slice b blo tj ++ (blockSliceB b (ti, tj, tk) ++
          slice b (tj + tk) bhi) := by
        simp only [blockSliceB]
        rw [← slice_append b tj (tj + tk) bhi (by omega) v4]
        exact slice_append b blo tj bhi v2 (by omega)
      refine ⟨?_, ?_, ?_, ?_⟩
      · simp only [List.map_append, List.map_cons, List.flatten_append, List.flatten_cons]
        rw [hsplitA]
        exact List.Sublist.append ihl1 (List.Sublist.append (List.Sublist.refl _) ihr1)
      · simp only [List.map_append, List.map_cons, List.flatten_append, List.flatten_cons]
        rw [hsplitB]
        exact List.Sublist.append ihl2 (List.Sublist.append (List.Sublist.refl _) ihr2)
      · simp only [List.map_append, List.map_cons, List.flatten_append, List.flatten_cons]
        rw [ihl3, ihr3, hmid]
      · simp only [List.map_append, List.map_cons, List.flatten_append, List.flatten_cons,
          List.length_append, List.sum_append, List.sum_cons]
        rw [ihl4, ihr4, hmidlen]

/-- The total matched size is witnessed by a common sublist of `a` and `b`. -/
theorem matchTotal_witness (a b : List Char) :
    ∃ F : List Char, List.Sublist F a ∧ List.Sublist F b ∧ F.length = matchTotal a b := by
  obtain ⟨s1, s2, s3, s4⟩ :=
    matchingBlocksAux_spec a b (a.length + 1) 0 a.length 0 b.length
      (by omega) le_rfl (by omega)
  rw [slice_full] at s1
  rw [slice_full] at s2
  exact ⟨_, s1, s3 ▸ s2, s4⟩

/-- `Σ_c min(countₐ c, count_b c)`: the number of matches of `quick_ratio`,
in closed form. -/
def quickBound (a b : List Char) : Nat :=
  ∑ c in a.toFinset, min (a.count c) (b.count c)

theorem length_le_quickBound (F a b : List Char) (hFa : List.Sublist F a)
    (hFb : List.Sublist F b) : F.length ≤ quickBound a b := by
  have hsub : F.toFinset ⊆ a.toFinset := by
    intro x hx
    exact List.mem_toFinset.mpr (hFa.subset (List.mem_toFinset.mp hx))
  calc F.length = ∑ c in F.toFinset, F.count c :=
        (List.sum_toFinset_count_eq_length F).symm
    _ ≤ ∑ c in F.toFinset, min (a.count c) (b.count c) :=
        Finset.sum_le_sum (fun c _ => le_min (hFa.count_le c) (hFb.count_le c))
    _ ≤ ∑ c in a.toFinset, min (a.count c) (b.count c) :=
        Finset.sum_le_sum_of_subset hsub

theorem matchTotal_le_quickBound (a b : List Char) :
    matchTotal a b ≤ quickBound a b := by
  obtain ⟨F, h1, h2, h3⟩ := matchTotal_witness a b
  rw [← h3]
  exact length_le_quickBound F a b h1 h2

/-! ### The `avail` loop of `quick_ratio` computes `quickBound` -/

theorem quickBound_append_singleton (bcount : Char → Nat) (p : List Char) (c : Char) :
    ∑ x in (p ++ [c]).toFinset, min ((p ++ [c]).count x) (bcount x) =
      (∑ x in p.toFinset, min (p.count x) (bcount x)) +
        (if p.count c < bcount c then 1 else 0) := by
  have hcount : ∀ x, (p ++ [c]).count x = p.count x + (if c = x then 1 else 0) := by
    intro x
    rw [List.count_append]
    congr 1
    simp [List.count_singleton', beq_iff_eq]
  by_cases hc : c ∈ p.toFinset
  · have hfin : (p ++ [c]).toFinset = p.toFinset := by
      rw [List.toFinset_append]
      simp only [List.toFinset_cons, List.toFinset_nil, insert_emptyc_eq]
      rw [Finset.union_comm]
      exact Finset.union_eq_right.mpr (by simpa using hc)
    rw [hfin]
    have hpt : ∀ x ∈ p.toFinset,
        min ((p ++ [c]).count x) (bcount x) =
          min (p.count x) (bcount x) +
            (if x = c then (if p.count c < bcount c then 1 else 0) else 0) := by
      intro x _
      by_cases hxc : x = c
      · subst hxc
        rw [if_pos rfl, hcount x, if_pos rfl]
        by_cases hlt : p.count x < bcount x
        · rw [if_pos hlt]
          omega
        · rw [if_neg hlt]
          omega
      · rw [if_neg hxc, hcount x, if_neg (fun h => hxc h.symm)]
        omega
    rw [Finset.sum_congr rfl hpt, Finset.sum_add_distrib, Finset.sum_ite_eq' p.toFinset c]
    rw [if_pos hc]
  · have hc' : c ∉ p := fun h => hc (List.mem_toFinset.mpr h)
    have hcnt0 : p.count c = 0 := List.count_eq_zero.mpr hc'
    have hfin : (p ++ [c]).toFinset = insert c p.toFinset := by
      rw [List.toFinset_append]
      simp only [List.toFinset_cons, List.toFinset_nil, insert_emptyc_eq]
      rw [Finset.union_comm]
      rfl
    rw [hfin, Finset.sum_insert (by simpa using hc)]
    have hterm : min ((p ++ [c]).count c) (bcount c) =
        if p.count c < bcount c then 1 else 0 := by
      rw [hcount c, if_pos rfl, hcnt0]
      by_cases hb : 0 < bcount c
      · rw [if_pos hb]
        omega
      · rw [if_neg hb]
        omega
    have hrest : ∀ x ∈ p.toFinset,
        min ((p ++ [c]).count x) (bcount x) = min (p.count x) (bcount x) := by
      intro x hx
      have hxc : c ≠ x := fun h => hc (h ▸ hx)
      rw [hcount x, if_neg hxc]
      omega
    rw [Finset.sum_congr rfl hrest, hterm]
    omega

theorem availLookup_cons_self (c : Char) (v : Int) (avail : List (Char × Int)) (d : Int) :
    availLookup ((c, v) :: avail) c d = v := by
  unfold availLookup
  rw [List.find?_cons_of_pos _ (by simp)]

theorem availLookup_cons_ne (c x : Char) (h : ¬ c = x) (v : Int)
    (avail : List (Char × Int)) (d : Int) :
    availLookup ((c, v) :: avail) x d = availLookup avail x d := by
  unfold availLookup
  rw [List.find?_cons_of_neg _ (by simpa using h)]

theorem quickLoop_spec (bcount : Char → Nat) :
    ∀ (rest p : List Char) (avail : List (Char × Int)) (m : Nat),
      (∀ c : Char, availLookup avail c ((bcount c : Int)) = (bcount c : Int) - p.count c) →
      m = ∑ x in p.toFinset, min (p.count x) (bcount x) →
      quickLoop bcount rest avail m =
        ∑ x in (p ++ rest).toFinset, min ((p ++ rest).count x) (bcount x) := by
  intro rest
  induction rest with
  | nil =>
    intro p avail m _ hm
    simpa [quickLoop] using hm
  | cons c cs ih =>
    intro p avail m hav hm
    rw [quickLoop]
    have hnumb : availLookup avail c ((bcount c : Int)) = (bcount c : Int) - p.count c :=
      hav c
    have hav' : ∀ x : Char,
        availLookup ((c, availLookup avail c ((bcount c : Int)) - 1) :: avail) x
          ((bcount x : Int)) = (bcount x : Int) - (p ++ [c]).count x := by
      intro x
      by_cases hxc : c = x
      · subst hxc
        rw [availLookup_cons_self, hnumb, List.count_append]
        have hc1 : List.count c [c] = 1 := by simp
        rw [hc1]
        push_cast
        ring
      · rw [availLookup_cons_ne c x hxc, hav x, List.count_append]
        have hc0 : List.count x [c] = 0 := by
          refine List.count_eq_zero.mpr ?_
          simpa using fun h => hxc h.symm
        rw [hc0]
        simp
    have hm' : (if 0 < availLookup avail c ((bcount c : Int)) then m + 1 else m) =
        ∑ x in (p ++ [c]).toFinset, min ((p ++ [c]).count x) (bcount x) := by
      rw [quickBound_append_singleton bcount p c, ← hm, hnumb]
      by_cases hlt : p.count c < bcount c
      · rw [if_pos (by omega), if_pos hlt]
      · rw [if_neg (by omega), if_neg hlt]
        omega
    have := ih (p ++ [c]) _ _ hav' hm'
    rw [this]
    congr 1 <;> rw [List.append_assoc] <;> rfl

/-- The `avail` loop of `quick_ratio` computes `Σ_c min(countₐ c, count_b c)`. -/
theorem quickLoop_eq_quickBound (a b : List Char) :
    quickLoop (fun c => b.count c) a [] 0 = quickBound a b := by
  have := quickLoop_spec (fun c => b.count c) a [] [] 0
    (by intro c; simp [availLookup]) (by simp)
  simpa [quickBound] using this

/-! ### The ratio chain: `ratio ≤ quick_ratio ≤ real_quick_ratio` -/

theorem calcRatio_mono {m1 m2 L : Nat} (h : m1 ≤ m2) :
    calcRatio m1 L ≤ calcRatio m2 L := by
  unfold calcRatio
  by_cases hL : L = 0
  · rw [if_pos hL, if_pos hL]
  · rw [if_neg hL, if_neg hL]
    have hLpos : (0 : ℚ) < (L : ℚ) := by
      have : 0 < L := Nat.pos_of_ne_zero hL
      exact_mod_cast this
    refine div_le_div_of_nonneg_right ?_ hLpos.le |>.trans_eq rfl
    have : (m1 : ℚ) ≤ (m2 : ℚ) := by exact_mod_cast h
    linarith

theorem quickBound_le_left (a b : List Char) : quickBound a b ≤ a.length := by
  calc quickBound a b ≤ ∑ c in a.toFinset, a.count c :=
        Finset.sum_le_sum (fun c _ => min_le_left _ _)
    _ = a.length := List.sum_toFinset_count_eq_length a

theorem quickBound_le_right (a b : List Char) : quickBound a b ≤ b.length := by
  have h1 : quickBound a b ≤ ∑ c in a.toFinset, b.count c :=
    Finset.sum_le_sum (fun c _ => min_le_right _ _)
  have h2 : ∑ c in a.toFinset, b.count c ≤ ∑ c in a.toFinset ∪ b.toFinset, b.count c :=
    Finset.sum_le_sum_of_subset (Finset.subset_union_left)
  have h3 : ∑ c in a.toFinset ∪ b.toFinset, b.count c = ∑ c in b.toFinset, b.count c := by
    refine (Finset.sum_subset Finset.subset_union_right ?_).symm
    intro x _ hx
    exact List.count_eq_zero.mpr (fun h => hx (List.mem_toFinset.mpr h))
  calc quickBound a b ≤ ∑ c in a.toFinset, b.count c := h1
    _ ≤ ∑ c in a.toFinset ∪ b.toFinset, b.count c := h2
    _ = ∑ c in b.toFinset, b.count c := h3
    _ = b.length := List.sum_toFinset_count_eq_length b

theorem ratio_le_quickRatio (a b : List Char) : ratio a b ≤ quickRatio a b := by
  unfold ratio quickRatio
  rw [quickLoop_eq_quickBound]
  exact calcRatio_mono (matchTotal_le_quickBound a b)

theorem quickRatio_le_realQuickRatio (a b : List Char) :
    quickRatio a b ≤ realQuickRatio a b := by
  unfold quickRatio realQuickRatio
  rw [quickLoop_eq_quickBound]
  exact calcRatio_mono (le_min (quickBound_le_left a b) (quickBound_le_right a b))

theorem ratio_le_realQuickRatio (a b : List Char) : ratio a b ≤ realQuickRatio a b :=
  le_trans (ratio_le_quickRatio a b) (quickRatio_le_realQuickRatio a b)

end Difflib

/-!
## ReferenceAPAValidation.py: name-year validation

Citations and references are the value records produced by
`find_citations_in_text` / `find_references_in_bibliography`; the pluggable
parser itself is out of scope, so records enter the theorems as data, with
the construction invariant (`key = normalize_citation_key(author, year)`)
as an explicit hypothesis where needed.
-/

/-- A parsed citation (`author`, `year` fields of the citation dict). -/
structure CiteData where
  author : List Char
  year : List Char
deriving DecidableEq

/-- A parsed reference (`author` display form, `year`, `full_author`). -/
structure RefData where
  author : List Char
  year : List Char
  fullAuthor : List Char
deriving DecidableEq

/-- Python `'\x7bsub\x7d' in s` (substring test). -/
def containsSub : List Char → List Char → Bool
  | [], sub => sub.isEmpty
  | c :: cs, sub => sub.isPrefixOf (c :: cs) || containsSub cs sub

/-- Characters kept by `re.sub(r'[^\w\s&]', '', ·)`. -/
def isKeyChar (c : Char) : Bool :=
  isPyWord c || isPySpace c || c = '&'

/-- `re.sub(r'\s+', ' ', ·)`: collapse every whitespace run to one space. -/
def collapseSpacesAux : Nat → List Char → List Char
  | 0, _ => []
  | _ + 1, [] => []
  | f + 1, c :: cs =>
    if isPySpace c then ' ' :: collapseSpacesAux f (cs.dropWhile isPySpace)
    else c :: collapseSpacesAux f cs

def collapseSpaces (l : List Char) : List Char :=
  collapseSpacesAux l.length l

/-- The author half of `normalize_citation_key`: strip characters other than
word characters, whitespace and `&`, trim, collapse internal whitespace. -/
def authorClean (author : List Char) : List Char :=
  collapseSpaces (pyStrip (author.filter isKeyChar))

/-- `normalize_citation_key(author, year) = f"{author_clean}|{year}"`. -/
def normalizeCitationKey (author year : List Char) : List Char :=
  authorClean author ++ '|' :: year

/-- One `\w+` token starting the list, and the rest. -/
def wordTokensAux : Nat → List Char → List (List Char)
  | 0, _ => []
  | _ + 1, [] => []
  | f + 1, c :: cs =>
    if isPyWord c then
      ((c :: cs).takeWhile isPyWord) :: wordTokensAux f ((c :: cs).dropWhile isPyWord)
    else wordTokensAux f cs

/-- Maximal `\w+` runs of a text. -/
def wordTokens (l : List Char) : List (List Char) :=
  wordTokensAux l.length l

/-- `re.sub(r'\band\b', '&', ·, flags=IGNORECASE)`: a `\b…\b` match of
`and` is exactly a maximal word-character run spelling `and`
case-insensitively, so replace those runs. -/
def replaceAndAux : Nat → List Char → List Char
  | 0, _ => []
  | _ + 1, [] => []
  | f + 1, c :: cs =>
    if isPyWord c then
      let tok := (c :: cs).takeWhile isPyWord
      (if pyLower tok = ['a', 'n', 'd'] then ['&'] else tok) ++
        replaceAndAux f ((c :: cs).dropWhile isPyWord)
    else c :: replaceAndAux f cs

def replaceAnd (l : List Char) : List Char :=
  replaceAndAux l.length l

/-- `re.sub(r'^the\s+', '', ·)` on the (already lowercased) text. -/
def stripLeadingThe (l : List Char) : List Char :=
  match l with
  | 't' :: 'h' :: 'e' :: c :: rest =>
    if isPySpace c then (c :: rest).dropWhile isPySpace else l
  | _ => l

/-- `normalize_text_for_comparison`: replace the word `and` by `&`, delete
periods and commas, strip, lowercase, drop one leading `the `. -/
def normalizeText (text : List Char) : List Char :=
  stripLeadingThe (pyLower (pyStrip ((replaceAnd text).filter
    (fun c => !(c = '.' || c = ',')))))

/-- `'a' ≤ c ≤ 'z'` (the `[a-z]` class). -/
def isLowerAlpha (c : Char) : Bool :=
  'a' ≤ c && c ≤ 'z'

/-- `set(re.findall(r'\b[a-z]{2,}\b', l))`: a match is exactly a maximal
word-character run that consists solely of lowercase letters and has length
at least two. -/
def wordSet (l : List Char) : Finset (List Char) :=
  ((wordTokens l).filter (fun t => 2 ≤ t.length && t.all isLowerAlpha)).toFinset

/-- The stopwords dropped from the citation's word set. -/
def stopwords : Finset (List Char) :=
  {['a', 'n', 'd'], ['t', 'h', 'e'], ['e', 't'], ['a', 'l']}

/-- The citation-side significant-word set of smart-match rule (d). -/
def sigWordSet (citeNorm : List Char) : Finset (List Char) :=
  wordSet citeNorm \ stopwords

/-- `cite_norm.split()[0] if cite_norm else ""` (first whitespace-separated
token; empty when there is none — CPython would raise on an all-whitespace
string, which normalization already prevents). -/
def firstToken (l : List Char) : List Char :=
  (l.dropWhile isPySpace).takeWhile (fun c => !isPySpace c)

/-- `re.match(r'^(.*?)\s*\[.*?\]', cite_author)`, returning group 1.
A `[` at position `i` completes the match when the whitespace run just
before it separates it from a newline-free group 1 (`.` does not match
newlines) and a `]` follows it with no newline in between; the first such
`[` wins (leftmost match, lazy group). -/
def findAbbrPrefixAux : List Char → List Char → Option (List Char)
  | _, [] => none
  | acc, c :: cs =>
    if c = '[' then
      let g1 := (acc.dropWhile isPySpace).reverse
      if g1.all (fun d => !(d = '\n')) &&
          decide (']' ∈ cs) &&
          (cs.takeWhile (fun d => !(d = ']'))).all (fun d => !(d = '\n')) then
        some g1
      else findAbbrPrefixAux ('[' :: acc) cs
    else findAbbrPrefixAux (c :: acc) cs

def findAbbrPrefix (l : List Char) : Option (List Char) :=
  findAbbrPrefixAux [] l

/-! ### `check_smart_match` (ReferenceAPAValidation.py lines 286–349) -/

/-- The year precondition: `if cite_year and ref_data['year'] != cite_year:
continue` (an empty citation year is falsy and skips the check). -/
def yearOk (cite : CiteData) (r : RefData) : Bool :=
  !(!cite.year.isEmpty && !(r.year = cite.year))

/-- Rule (a): direct normalized-text equality. -/
def ruleA (cite : CiteData) (r : RefData) : Bool :=
  normalizeText cite.author = normalizeText r.fullAuthor

/-- Rule (b): abbreviation-definition match (`citation_prefix_norm` must be
truthy, i.e. non-empty). -/
def ruleB (cite : CiteData) (r : RefData) : Bool :=
  match findAbbrPrefix cite.author with
  | some pre =>
    !(normalizeText pre).isEmpty && decide (normalizeText pre = normalizeText r.fullAuthor)
  | none => false

/-- Rule (c): `et al` — first surnames compared. -/
def ruleC (cite : CiteData) (r : RefData) : Bool :=
  containsSub (normalizeText cite.author) ['e', 't', ' ', 'a', 'l'] &&
    decide (firstToken (normalizeText cite.author) = firstToken (normalizeText r.fullAuthor))

/-- Rule (d): word-subset match, only when the citation's significant word
set has more than one element. -/
def ruleD (cite : CiteData) (r : RefData) : Bool :=
  1 < (sigWordSet (normalizeText cite.author)).card &&
    decide (sigWordSet (normalizeText cite.author) ⊆ wordSet (normalizeText r.fullAuthor))

/-- One candidate of the smart-match loop: any of the four rules accepts. -/
def smartCandidate (cite : CiteData) (r : RefData) : Bool :=
  ruleA cite r || ruleB cite r || ruleC cite r || ruleD cite r

/-- `check_smart_match`: walk the reference table in order; the first
candidate that passes the year precondition and any rule wins. -/
def checkSmartMatch (cite : CiteData) :
    List (List Char × RefData) → Option (List Char)
  | [] => none
  | (k, r) :: rest =>
    if !yearOk cite r then checkSmartMatch cite rest
    else if smartCandidate cite r then some k
    else checkSmartMatch cite rest

/-! ### `check_spelling_mismatch` (lines 351–373) -/

/-- The best-ratio fold of `check_spelling_mismatch` (`ratio > 0.8` and
strictly better than the best so far). -/
def spellAux (citeNorm : List Char) :
    List (List Char × RefData) → Option (List Char) → ℚ → Option (List Char)
  | [], best, _ => best
  | (k, r) :: rest, best, maxRatio =>
    let rt := Difflib.ratio citeNorm (normalizeText r.author)
    if rt > 4/5 && rt > maxRatio then spellAux citeNorm rest (some k) rt
    else spellAux citeNorm rest best maxRatio

def checkSpellingMismatch (citeAuthor : List Char)
    (refs : List (List Char × RefData)) : Option (List Char) :=
  spellAux (normalizeText citeAuthor) refs none 0

/-! ### `check_et_al_misuse` (lines 376–444) -/

/-- `re.match(r'^[A-Z]\.?$', ·)`: a bare initial (`J` or `J.`). -/
def isBareInitial (l : List Char) : Bool :=
  match l with
  | [c] => 'A' ≤ c && c ≤ 'Z'
  | [c, d] => ('A' ≤ c && c ≤ 'Z') && d = '.'
  | _ => false

/-- The reference author count: split on `&`; comma-separated segments of
the part before the first `&` that are non-empty and not bare initials,
plus one for the author after `&`; no `&` means one author. -/
def authorCount (refFull : List Char) : Nat :=
  if '&' ∈ refFull then
    ((refFull.splitOn '&').headI.splitOn ',').countP
      (fun p => !(pyStrip p).isEmpty && !isBareInitial (pyStrip p)) + 1
  else 1

/-- Try to match `\s*et\s+al\.?\s*` at the head of the text, returning the
remainder on success. -/
def matchEtAlAt (l : List Char) : Option (List Char) :=
  match l.dropWhile isPySpace with
  | e :: t :: r2 =>
    if e.toLower = 'e' && t.toLower = 't' then
      let r3 := r2.dropWhile isPySpace
      if r3.length < r2.length then
        match r3 with
        | a :: lc :: r4 =>
          if a.toLower = 'a' && lc.toLower = 'l' then
            some ((match r4 with | '.' :: r5 => r5 | _ => r4).dropWhile isPySpace)
          else none
        | _ => none
      else none
    else none
  | _ => none

/-- `re.sub(r'\s*et\s+al\.?\s*', '', ·, flags=IGNORECASE)`: leftmost
non-overlapping matches removed. -/
def removeEtAlAux : Nat → List Char → List Char
  | 0, _ => []
  | _ + 1, [] => []
  | f + 1, c :: cs =>
    match matchEtAlAt (c :: cs) with
    | some rem => removeEtAlAux f rem
    | none => c :: removeEtAlAux f cs

def removeEtAl (l : List Char) : List Char :=
  removeEtAlAux l.length l

/-- `extract_first_surname` (lines 228–236). -/
def extractFirstSurname (author : List Char) : List Char :=
  let s := removeEtAl (pyStrip author)
  if ',' ∈ s then pyStrip (s.takeWhile (fun c => !(c = ','))) else firstToken s

/-- The outcome of `check_et_al_misuse`: `error` for `et al.` with at most
two authors, `warning` for a spelled-out citation of three or more. -/
inductive EtAlResult where
  | error (authorCount : Nat) (correctForm : List Char)
  | warning (authorCount : Nat) (correctForm : List Char)
deriving DecidableEq

def checkEtAlMisuse (cite : CiteData) (r : RefData) : Option EtAlResult :=
  let citeAuthor := pyStrip cite.author
  let hasEtAl := containsSub (pyLower citeAuthor) ['e', 't', ' ', 'a', 'l']
  let count := authorCount r.fullAuthor
  if hasEtAl && count ≤ 2 then
    some (.error count r.author)
  else if !hasEtAl && 3 ≤ count then
    some (.warning count (extractFirstSurname r.fullAuthor ++
      [' ', 'e', 't', ' ', 'a', 'l', '.']))
  else none

/-! ### `get_citation_matches` (lines 446–481) and the diagnosis order of
`validate_document` (lines 596–661) -/

/-- The matcher cascade for one citation: exact key, abbreviation table,
smart match. -/
def getCitationMatch (cite : CiteData) (citeKey : List Char)
    (refs : List (List Char × RefData)) (abbrMap : List (List Char × List Char)) :
    Option (List Char) :=
  if (refs.find? (fun p => p.1 = citeKey)).isSome then some citeKey
  else
    match abbrMap.find? (fun p => p.1 = pyStrip cite.author ++ '|' :: cite.year) with
    | some p => some p.2
    | none => checkSmartMatch cite refs

/-- The diagnosis assigned to a citation the matcher left unresolved. -/
inductive Diagnosis where
  | yearMismatch (refKey : List Char) (refYear : List Char)
  | spellingMismatch (refKey : List Char)
  | missingReference
deriving DecidableEq

/-- The `else` branch of the per-citation loop of `validate_document`:
first a year-independent author match (reported as a year mismatch),
else the spelling check, else a missing reference.  Each arm ends with
`continue`, so exactly one diagnosis is produced. -/
def diagnoseUnmatched (cite : CiteData) (refs : List (List Char × RefData)) :
    Diagnosis :=
  match refs.find? (fun p => authorClean p.2.author = authorClean (pyStrip cite.author)) with
  | some p => .yearMismatch p.1 p.2.year
  | none =>
    match checkSpellingMismatch (pyStrip cite.author) refs with
    | some k => .spellingMismatch k
    | none => .missingReference

/-! ### `find_duplicates` (ReferenceAPAValidation.py lines 50–93) -/

/-- `round(x, 1)` (Python's round-half-to-even, on the exact rational). -/
def round1 (x : ℚ) : ℚ :=
  let y := x * 10
  let f := ⌊y⌋
  let r : ℤ :=
    if y - f < 1/2 then f
    else if y - f > 1/2 then f + 1
    else if Even f then f else f + 1
  (r : ℚ) / 10

/-- One duplicate entry (`id`, truncated `text`, `duplicate_of`, `score`). -/
structure DupEntry where
  id : List Char
  text : List Char
  duplicateOf : List Char
  score : ℚ
deriving DecidableEq

/-- The inner-pair body of the APA `find_duplicates`: skip empty texts,
skip a length ratio below 0.6, report when the full-text ratio exceeds
0.85. -/
def dupPair (ra rb : List Char × List Char) : Option DupEntry :=
  if ra.2.length = 0 || rb.2.length = 0 then none
  else if ((min ra.2.length rb.2.length : ℚ) / (max ra.2.length rb.2.length)) < 3/5 then
    none
  else
    let rt := Difflib.ratio ra.2 rb.2
    if rt > 17/20 then some ⟨rb.1, rb.2.take 100, ra.1, round1 (rt * 100)⟩
    else none

/-- `find_duplicates` over the processed `(key, full text)` table: the
`O(N²)` forward-only double loop. -/
def findDuplicatesAPA : List (List Char × List Char) → List DupEntry
  | [] => []
  | x :: rest => rest.filterMap (dupPair x) ++ findDuplicatesAPA rest

/-! ## Stripping commutes with the key normalisation

`validate_document` strips the citation author before the diagnosis loop
while `find_citations_in_text` builds the key from the raw author; the two
agree because `normalize_citation_key` strips internally. -/

theorem dropWhile_cons_mem {p : Char → Bool} {u w : List Char}
    (hu : ∀ c ∈ u, p c = true) : (u ++ w).dropWhile p = w.dropWhile p := by
  induction u with
  | nil => rfl
  | cons c u ih =>
    rw [List.cons_append, List.dropWhile_cons_of_pos (hu c (by simp))]
    exact ih (fun d hd => hu d (by simp [hd]))

theorem pyStrip_append_left {u w : List Char} (hu : ∀ c ∈ u, isPySpace c = true) :
    pyStrip (u ++ w) = pyStrip w := by
  unfold pyStrip
  rw [dropWhile_cons_mem hu]

theorem pyStrip_append_right {w v : List Char} (hv : ∀ c ∈ v, isPySpace c = true) :
    pyStrip (w ++ v) = pyStrip w := by
  unfold pyStrip
  cases hdw : w.dropWhile isPySpace with
  | nil =>
    have hw : ∀ c ∈ w, isPySpace c = true := List.dropWhile_eq_nil_iff.mp hdw
    have h1 : (w ++ v).dropWhile isPySpace = v.dropWhile isPySpace :=
      dropWhile_cons_mem hw
    have h2 : v.dropWhile isPySpace = [] := List.dropWhile_eq_nil_iff.mpr hv
    simp [h1, h2, hdw]
  | cons d ds =>
    have h1 : (w ++ v).dropWhile isPySpace = w.dropWhile isPySpace ++ v := by
      rw [List.dropWhile_append, hdw]
      simp
    have h2 : ∀ c ∈ v.reverse, isPySpace c = true :=
      fun c hc => hv c (List.mem_reverse.mp hc)
    rw [h1, hdw, List.reverse_append, dropWhile_cons_mem h2]

theorem pyStrip_decomp (x : List Char) :
    ∃ u v, x = u ++ (pyStrip x ++ v) ∧ (∀ c ∈ u, isPySpace c = true) ∧
      (∀ c ∈ v, isPySpace c = true) := by
  refine ⟨x.takeWhile isPySpace,
    ((x.dropWhile isPySpace).reverse.takeWhile isPySpace).reverse, ?_, ?_, ?_⟩
  · have h2 : x.dropWhile isPySpace =
        pyStrip x ++ ((x.dropWhile isPySpace).reverse.takeWhile isPySpace).reverse := by
      have h3 : (x.dropWhile isPySpace).reverse =
          (x.dropWhile isPySpace).reverse.takeWhile isPySpace ++
            (x.dropWhile isPySpace).reverse.dropWhile isPySpace :=
        (List.takeWhile_append_dropWhile _ _).symm
      calc x.dropWhile isPySpace = (x.dropWhile isPySpace).reverse.reverse :=
            (List.reverse_reverse _).symm
        _ = ((x.dropWhile isPySpace).reverse.takeWhile isPySpace ++
              (x.dropWhile isPySpace).reverse.dropWhile isPySpace).reverse := by
            rw [← h3]
        _ = ((x.dropWhile isPySpace).reverse.dropWhile isPySpace).reverse ++
              ((x.dropWhile isPySpace).reverse.takeWhile isPySpace).reverse := by
            rw [List.reverse_append]
        _ = pyStrip x ++
              ((x.dropWhile isPySpace).reverse.takeWhile isPySpace).reverse := rfl
    calc x = x.takeWhile isPySpace ++ x.dropWhile isPySpace :=
          (List.takeWhile_append_dropWhile _ _).symm
      _ = x.takeWhile isPySpace ++ (pyStrip x ++
            ((x.dropWhile isPySpace).reverse.takeWhile isPySpace).reverse) := by
          rw [← h2]
  · intro c hc
    exact List.mem_takeWhile_imp hc
  · intro c hc
    exact List.mem_takeWhile_imp (List.mem_reverse.mp hc)

theorem pyStrip_filter_strip (p : Char → Bool) (x : List Char) :
    pyStrip ((pyStrip x).filter p) = pyStrip (x.filter p) := by
  obtain ⟨u, v, hx, hu, hv⟩ := pyStrip_decomp x
  conv_rhs => rw [hx]
  rw [List.filter_append, List.filter_append,
    pyStrip_append_left (fun c hc => hu c (List.mem_of_mem_filter hc)),
    pyStrip_append_right (fun c hc => hv c (List.mem_of_mem_filter hc))]

/-- `authorClean (author.strip()) = authorClean author`. -/
theorem authorClean_pyStrip (x : List Char) :
    authorClean (pyStrip x) = authorClean x := by
  unfold authorClean
  rw [pyStrip_filter_strip isKeyChar x]

/-! ## The spelling-mismatch fold keeps a running maximum -/

/-- Proof-side version of `spellAux` carrying the whole `(best, max_ratio)`
state. -/
def spellAuxP (citeNorm : List Char) :
    List (List Char × RefData) → Option (List Char) × ℚ → Option (List Char) × ℚ
  | [], st => st
  | (k, r) :: rest, (best, maxRatio) =>
    let rt := Difflib.ratio citeNorm (normalizeText r.author)
    if rt > 4/5 && rt > maxRatio then spellAuxP citeNorm rest (some k, rt)
    else spellAuxP citeNorm rest (best, maxRatio)

theorem spellAux_eq_P (citeNorm : List Char) :
    ∀ (l : List (List Char × RefData)) (best : Option (List Char)) (maxRatio : ℚ),
      spellAux citeNorm l best maxRatio = (spellAuxP citeNorm l (best, maxRatio)).1 := by
  intro l
  induction l with
  | nil => intro best maxRatio; rfl
  | cons p rest ih =>
    intro best maxRatio
    obtain ⟨k, r⟩ := p
    rw [spellAux, spellAuxP]
    by_cases hc : (Difflib.ratio citeNorm (normalizeText r.author) > 4/5 &&
        Difflib.ratio citeNorm (normalizeText r.author) > maxRatio) = true
    · rw [if_pos hc, if_pos hc, ih]
    · rw [if_neg hc, if_neg hc, ih]

theorem spellAuxP_spec (citeNorm : List Char) :
    ∀ (l : List (List Char × RefData)) (best : Option (List Char)) (maxRatio : ℚ),
      maxRatio ≤ (spellAuxP citeNorm l (best, maxRatio)).2 ∧
      ((spellAuxP citeNorm l (best, maxRatio)) = (best, maxRatio) ∨
        ∃ k r, (k, r) ∈ l ∧ (spellAuxP citeNorm l (best, maxRatio)).1 = some k ∧
          (spellAuxP citeNorm l (best, maxRatio)).2 =
            Difflib.ratio citeNorm (normalizeText r.author) ∧
          (spellAuxP citeNorm l (best, maxRatio)).2 > 4/5) ∧
      (∀ p ∈ l, Difflib.ratio citeNorm (normalizeText p.2.author) ≤
          (spellAuxP citeNorm l (best, maxRatio)).2 ∨
        Difflib.ratio citeNorm (normalizeText p.2.author) ≤ 4/5) := by
  intro l
  induction l with
  | nil =>
    intro best maxRatio
    exact ⟨le_rfl, Or.inl rfl, by intro p hp; cases hp⟩
  | cons q rest ih =>
    intro best maxRatio
    obtain ⟨k, r⟩ := q
    rw [spellAuxP]
    by_cases hc : (Difflib.ratio citeNorm (normalizeText r.author) > 4/5 &&
        Difflib.ratio citeNorm (normalizeText r.author) > maxRatio) = true
    · rw [if_pos hc]
      simp only [Bool.and_eq_true, decide_eq_true_eq] at hc
      obtain ⟨ih1, ih2, ih3⟩ :=
        ih (some k) (Difflib.ratio citeNorm (normalizeText r.author))
      refine ⟨le_trans (le_of_lt hc.2) ih1, ?_, ?_⟩
      · rcases ih2 with h | ⟨k', r', hm, h1, h2, h3⟩
        · refine Or.inr ⟨k, r, by simp, ?_, ?_, ?_⟩
          · rw [h]
          · rw [h]
          · rw [h]; exact hc.1
        · exact Or.inr ⟨k', r', by simp [hm], h1, h2, h3⟩
      · intro p hp
        rcases List.mem_cons.mp hp with hp | hp
        · subst hp
          exact Or.inl ih1
        · exact ih3 p hp
    · rw [if_neg hc]
      simp only [Bool.and_eq_true, decide_eq_true_eq, not_and_or, not_lt] at hc
      obtain ⟨ih1, ih2, ih3⟩ := ih best maxRatio
      refine ⟨ih1, ?_, ?_⟩
      · rcases ih2 with h | ⟨k', r', hm, h1, h2, h3⟩
        · exact Or.inl h
        · exact Or.inr ⟨k', r', by simp [hm], h1, h2, h3⟩
      · intro p hp
        rcases List.mem_cons.mp hp with hp | hp
        · subst hp
          rcases hc with hc | hc
          · exact Or.inr hc
          · exact Or.inl (le_trans hc ih1)
        · exact ih3 p hp

theorem checkSpellingMismatch_none_iff (citeAuthor : List Char)
    (refs : List (List Char × RefData)) :
    checkSpellingMismatch citeAuthor refs = none ↔
      ∀ p ∈ refs, Difflib.ratio (normalizeText citeAuthor) (normalizeText p.2.author) ≤ 4/5 := by
  unfold checkSpellingMismatch
  rw [spellAux_eq_P]
  obtain ⟨h1, h2, h3⟩ := spellAuxP_spec (normalizeText citeAuthor) refs none 0
  constructor
  · intro hn p hp
    rcases h2 with h | ⟨k, r, _, hk, _, _⟩
    · rcases h3 p hp with h' | h'
      · rw [h] at h'
        exact le_trans h' (by norm_num)
      · exact h'
    · rw [hn] at hk
      cases hk
  · intro hall
    rcases h2 with h | ⟨k, r, hm, hk, hrt, hgt⟩
    · rw [h]
    · exfalso
      have := hall (k, r) hm
      rw [← hrt] at this
      exact absurd hgt (not_lt.mpr this)

theorem checkSpellingMismatch_some (citeAuthor : List Char)
    (refs : List (List Char × RefData)) (k : List Char)
    (h : checkSpellingMismatch citeAuthor refs = some k) :
    ∃ r, (k, r) ∈ refs ∧
      Difflib.ratio (normalizeText citeAuthor) (normalizeText r.author) > 4/5 ∧
      ∀ p ∈ refs, Difflib.ratio (normalizeText citeAuthor) (normalizeText p.2.author) ≤
        Difflib.ratio (normalizeText citeAuthor) (normalizeText r.author) := by
  unfold checkSpellingMismatch at h
  rw [spellAux_eq_P] at h
  obtain ⟨h1, h2, h3⟩ := spellAuxP_spec (normalizeText citeAuthor) refs none 0
  rcases h2 with heq | ⟨k', r, hm, hk, hrt, hgt⟩
  · rw [heq] at h
    cases h
  · rw [h] at hk
    have hkk : k' = k := by injection hk.symm
    subst hkk
    refine ⟨r, hm, by rw [← hrt]; exact hgt, ?_⟩
    intro p hp
    rcases h3 p hp with h' | h'
    · rw [hrt] at h'
      exact h'
    · rw [← hrt]
      exact le_trans h' (le_of_lt hgt)

/-! ## Claim C4: the diagnosis order for unresolved citations -/

/-- C4: an unresolved citation receives exactly one of three diagnoses, in
fixed order.  (1) If some reference's cleaned author equals the citation's,
a `YearMismatch` naming the first such reference is produced — and because
the citation is unresolved (so in particular the exact-key lookup failed,
and keys are `author_clean|year`), that reference's year necessarily
differs from the citation's.  (2) Otherwise, a `SpellingMismatch` is
produced exactly when some reference author exceeds similarity 0.8, and the
reported reference attains the best ratio.  (3) Otherwise
`MissingReference`.  Exactly one arm applies because `Diagnosis` is a
single value. -/
theorem c4_diagnosis (cite : CiteData) (refs : List (List Char × RefData))
    (abbrMap : List (List Char × List Char))
    (hkeys : ∀ p ∈ refs, p.1 = normalizeCitationKey p.2.author p.2.year)
    (hunres : getCitationMatch cite (normalizeCitationKey cite.author cite.year)
      refs abbrMap = none) :
    ((∃ p ∈ refs, authorClean p.2.author = authorClean (pyStrip cite.author)) →
      ∃ k y, diagnoseUnmatched cite refs = .yearMismatch k y) ∧
    (∀ k y, diagnoseUnmatched cite refs = .yearMismatch k y →
      ∃ r, (k, r) ∈ refs ∧ y = r.year ∧
        authorClean r.author = authorClean (pyStrip cite.author) ∧ y ≠ cite.year) ∧
    (∀ k, diagnoseUnmatched cite refs = .spellingMismatch k →
      (¬ ∃ p ∈ refs, authorClean p.2.author = authorClean (pyStrip cite.author)) ∧
      ∃ r, (k, r) ∈ refs ∧
        Difflib.ratio (normalizeText (pyStrip cite.author)) (normalizeText r.author) > 4/5 ∧
        ∀ p ∈ refs,
          Difflib.ratio (normalizeText (pyStrip cite.author)) (normalizeText p.2.author) ≤
            Difflib.ratio (normalizeText (pyStrip cite.author)) (normalizeText r.author)) ∧
    (diagnoseUnmatched cite refs = .missingReference ↔
      (¬ ∃ p ∈ refs, authorClean p.2.author = authorClean (pyStrip cite.author)) ∧
      ∀ p ∈ refs,
        Difflib.ratio (normalizeText (pyStrip cite.author)) (normalizeText p.2.author) ≤ 4/5) := by
  have hnone : refs.find?
      (fun q => q.1 = normalizeCitationKey cite.author cite.year) = none := by
    unfold getCitationMatch at hunres
    by_cases hs : (refs.find?
        (fun q => q.1 = normalizeCitationKey cite.author cite.year)).isSome
    · rw [if_pos hs] at hunres
      cases hunres
    · exact Option.not_isSome_iff_eq_none.mp hs
  unfold diagnoseUnmatched
  cases hf : refs.find?
      (fun p => authorClean p.2.author = authorClean (pyStrip cite.author)) with
  | some p =>
    have hmem : p ∈ refs := List.mem_of_find?_eq_some hf
    have hauth : authorClean p.2.author = authorClean (pyStrip cite.author) := by
      have := List.find?_some hf
      simpa using this
    refine ⟨fun _ => ⟨p.1, p.2.year, rfl⟩, ?_, ?_, ?_⟩
    · intro k y heq
      obtain ⟨hk1, hk2⟩ : p.1 = k ∧ p.2.year = y := by
        injection heq with h1 h2
        exact ⟨h1, h2⟩
      have hkp : (k, p.2) = p := by rw [← hk1]
      refine ⟨p.2, by rw [hkp]; exact hmem, hk2.symm, hauth, ?_⟩
      intro hy
      have hkey : p.1 = normalizeCitationKey cite.author cite.year := by
        rw [hkeys p hmem]
        unfold normalizeCitationKey
        rw [hauth, authorClean_pyStrip, hk2, hy]
      have := List.find?_eq_none.mp hnone p hmem
      simp only [decide_eq_true_eq] at this
      exact this hkey
    · intro k heq
      cases heq
    · constructor
      · intro heq
        cases heq
      · rintro ⟨hno, _⟩
        exact absurd ⟨p, hmem, hauth⟩ hno
  | none =>
    have hno : ¬ ∃ p ∈ refs, authorClean p.2.author = authorClean (pyStrip cite.author) := by
      rintro ⟨p, hp, heq⟩
      have := List.find?_eq_none.mp hf p hp
      simp only [decide_eq_true_eq] at this
      exact this heq
    cases hs : checkSpellingMismatch (pyStrip cite.author) refs with
    | some k =>
      refine ⟨fun h => absurd h hno, ?_, ?_, ?_⟩
      · intro k' y heq
        cases heq
      · intro k' heq
        have hk : k = k' := by injection heq
        subst hk
        exact ⟨hno, checkSpellingMismatch_some _ refs k hs⟩
      · constructor
        · intro heq
          cases heq
        · rintro ⟨_, hall⟩
          have := (checkSpellingMismatch_none_iff (pyStrip cite.author) refs).mpr hall
          rw [hs] at this
          cases this
    | none =>
      refine ⟨fun h => absurd h hno, ?_, ?_, ?_⟩
      · intro k' y heq
        cases heq
      · intro k' heq
        cases heq
      · exact ⟨fun _ => ⟨hno, (checkSpellingMismatch_none_iff _ refs).mp hs⟩,
          fun _ => rfl⟩

/-- Witness: the unresolved citation `Smith (2021)` against a bibliography
containing only `Smith (2020)` is diagnosed as a year mismatch. -/
theorem c4_diagnosis_witness :
    ∃ k y, diagnoseUnmatched ⟨"Smith".toList, "2021".toList⟩
      [(normalizeCitationKey "Smith".toList "2020".toList,
        ⟨"Smith".toList, "2020".toList, "Smith, J.".toList⟩)] = .yearMismatch k y :=
  (c4_diagnosis ⟨"Smith".toList, "2021".toList⟩
    [(normalizeCitationKey "Smith".toList "2020".toList,
      ⟨"Smith".toList, "2020".toList, "Smith, J.".toList⟩)] []
    (by decide) (by decide)).1
    ⟨(normalizeCitationKey "Smith".toList "2020".toList,
      ⟨"Smith".toList, "2020".toList, "Smith, J.".toList⟩), by simp, by decide⟩

/-! ## Claim C7: smart-match rule (d) -/

/-- The claim of C7 as stated is false: a citation whose significant-word
set is a non-empty singleton contained in the candidate's word set is *not*
matched by rule (d) — the code requires `len(cite_words) > 1`.  Concretely,
citation `Smith (2020)` against reference `Smith, John Q. (2020)` passes
the year precondition, has the non-empty singleton word set `{smith}`
contained in the candidate's `{smith, john}`, yet rule (d) rejects it and
the whole smart match returns nothing. -/
theorem c7_counterexample :
    yearOk ⟨"Smith".toList, "2020".toList⟩
        ⟨"Smith".toList, "2020".toList, "Smith, John Q.".toList⟩ = true ∧
    (sigWordSet (normalizeText "Smith".toList)).Nonempty ∧
    sigWordSet (normalizeText "Smith".toList) ⊆
      wordSet (normalizeText "Smith, John Q.".toList) ∧
    ruleD ⟨"Smith".toList, "2020".toList⟩
        ⟨"Smith".toList, "2020".toList, "Smith, John Q.".toList⟩ = false ∧
    checkSmartMatch ⟨"Smith".toList, "2020".toList⟩
        [(normalizeCitationKey "Smith".toList "2020".toList,
          ⟨"Smith".toList, "2020".toList, "Smith, John Q.".toList⟩)] = none := by
  refine ⟨by decide, ?_, by decide, by decide, by decide⟩
  exact ⟨"smith".toList, by decide⟩

/-- C7 (amended: the citation's significant-word set must have at least two
elements, not merely be non-empty): for every candidate reference passing
the year precondition, if the citation's set of lowercase words of length
≥ 2 (after dropping the stopwords `and`, `the`, `et`, `al`) has at least
two elements and is a subset of the candidate's word set, the candidate is
accepted by rule (d), and the smart-match loop reaching that candidate
returns it. -/
theorem c7_ruleD (cite : CiteData) (r : RefData) (hy : yearOk cite r = true)
    (h2 : 2 ≤ (sigWordSet (normalizeText cite.author)).card)
    (hsub : sigWordSet (normalizeText cite.author) ⊆ wordSet (normalizeText r.fullAuthor)) :
    ruleD cite r = true ∧ smartCandidate cite r = true ∧
    ∀ (k : List Char) (rest : List (List Char × RefData)),
      checkSmartMatch cite ((k, r) :: rest) = some k := by
  have hd : ruleD cite r = true := by
    unfold ruleD
    rw [Bool.and_eq_true, decide_eq_true_eq, decide_eq_true_eq]
    exact ⟨by omega, hsub⟩
  have hc : smartCandidate cite r = true := by
    unfold smartCandidate
    rw [hd]
    simp
  refine ⟨hd, hc, ?_⟩
  intro k rest
  rw [checkSmartMatch, hy]
  simp only [Bool.not_true, Bool.false_eq_true, if_false, hc, if_true]

/-- Witness for C7's amended rule at a two-word citation. -/
theorem c7_ruleD_witness :
    ruleD ⟨"Smith & Jones".toList, "2020".toList⟩
        ⟨"Smith".toList, "2020".toList, "Smith, A., Jones, B.".toList⟩ = true ∧
    checkSmartMatch ⟨"Smith & Jones".toList, "2020".toList⟩
        [("k1".toList, ⟨"Smith".toList, "2020".toList, "Smith, A., Jones, B.".toList⟩)] =
      some "k1".toList := by
  have h := c7_ruleD ⟨"Smith & Jones".toList, "2020".toList⟩
    ⟨"Smith".toList, "2020".toList, "Smith, A., Jones, B.".toList⟩
    (by decide) (by decide) (by decide)
  exact ⟨h.1, h.2.2 "k1".toList []⟩

/-! ## Claim C5: et al. misuse -/

/-- The `'et al' in cite_author.lower()` test of `check_et_al_misuse`. -/
def citationUsesEtAl (cite : CiteData) : Bool :=
  containsSub (pyLower (pyStrip cite.author)) ['e', 't', ' ', 'a', 'l']

theorem checkEtAlMisuse_error_iff (cite : CiteData) (r : RefData) :
    checkEtAlMisuse cite r = some (.error (authorCount r.fullAuthor) r.author) ↔
      citationUsesEtAl cite = true ∧ authorCount r.fullAuthor ≤ 2 := by
  unfold checkEtAlMisuse citationUsesEtAl
  by_cases h1 : containsSub (pyLower (pyStrip cite.author)) ['e', 't', ' ', 'a', 'l'] = true
  · by_cases h2 : authorCount r.fullAuthor ≤ 2
    · rw [if_pos (by rw [h1]; simpa using h2)]
      simp [h1, h2]
    · rw [if_neg (by rw [h1]; simpa using h2),
        if_neg (by rw [h1]; simp)]
      simp [h1, h2]
  · rw [if_neg (by simp at h1; rw [h1]; simp)]
    by_cases h3 : 3 ≤ authorCount r.fullAuthor
    · rw [if_pos (by simp at h1; rw [h1]; simpa using h3)]
      simp [h1]
    · rw [if_neg (by simp at h1; rw [h1]; simpa using h3)]
      simp [h1]

theorem checkEtAlMisuse_warning_iff (cite : CiteData) (r : RefData) :
    checkEtAlMisuse cite r = some (.warning (authorCount r.fullAuthor)
        (extractFirstSurname r.fullAuthor ++ [' ', 'e', 't', ' ', 'a', 'l', '.'])) ↔
      citationUsesEtAl cite = false ∧ 3 ≤ authorCount r.fullAuthor := by
  unfold checkEtAlMisuse citationUsesEtAl
  by_cases h1 : containsSub (pyLower (pyStrip cite.author)) ['e', 't', ' ', 'a', 'l'] = true
  · by_cases h2 : authorCount r.fullAuthor ≤ 2
    · rw [if_pos (by rw [h1]; simpa using h2)]
      simp [h1]
    · rw [if_neg (by rw [h1]; simpa using h2), if_neg (by rw [h1]; simp)]
      simp [h1]
  · rw [if_neg (by simp at h1; rw [h1]; simp)]
    by_cases h3 : 3 ≤ authorCount r.fullAuthor
    · rw [if_pos (by simp at h1; rw [h1]; simpa using h3)]
      simp [h1, h3]
    · rw [if_neg (by simp at h1; rw [h1]; simpa using h3)]
      simp [h1, h3]

/-- C5: per matched citation–reference pair, the reference author count is
derived from the full author string by `authorCount` (split on `&`, count
non-empty non-bare-initial comma segments before the first `&`, plus one;
no `&` means 1); `et al.` with count ≤ 2 is an error, a spelled-out
citation with count ≥ 3 is a warning suggesting `<First> et al.`; at most
one of the two fires; and the four concrete §8 cases hold. -/
theorem c5_etAlMisuse :
    (∀ (cite : CiteData) (r : RefData),
      (checkEtAlMisuse cite r = some (.error (authorCount r.fullAuthor) r.author) ↔
        citationUsesEtAl cite = true ∧ authorCount r.fullAuthor ≤ 2) ∧
      (checkEtAlMisuse cite r = some (.warning (authorCount r.fullAuthor)
          (extractFirstSurname r.fullAuthor ++ [' ', 'e', 't', ' ', 'a', 'l', '.'])) ↔
        citationUsesEtAl cite = false ∧ 3 ≤ authorCount r.fullAuthor) ∧
      ¬(∃ c1 f1 c2 f2, checkEtAlMisuse cite r = some (.error c1 f1) ∧
        checkEtAlMisuse cite r = some (.warning c2 f2))) ∧
    authorCount "Smith, J.".toList = 1 ∧
    checkEtAlMisuse ⟨"Smith et al.".toList, "2020".toList⟩
      ⟨"Smith".toList, "2020".toList, "Smith, J.".toList⟩ =
        some (.error 1 "Smith".toList) ∧
    authorCount "Smith, J., & Jones, M.".toList = 2 ∧
    checkEtAlMisuse ⟨"Smith et al.".toList, "2020".toList⟩
      ⟨"Smith & Jones".toList, "2020".toList, "Smith, J., & Jones, M.".toList⟩ =
        some (.error 2 "Smith & Jones".toList) ∧
    authorCount "Smith, J., Jones, M., & Brown, K.".toList = 3 ∧
    checkEtAlMisuse ⟨"Smith".toList, "2020".toList⟩
      ⟨"Smith".toList, "2020".toList, "Smith, J., Jones, M., & Brown, K.".toList⟩ =
        some (.warning 3 "Smith et al.".toList) ∧
    checkEtAlMisuse ⟨"Smith et al.".toList, "2020".toList⟩
      ⟨"Smith".toList, "2020".toList, "Smith, J., Jones, M., & Brown, K.".toList⟩ =
        none := by
  refine ⟨?_, by decide, by decide, by decide, by decide, by decide, by decide, by decide⟩
  intro cite r
  refine ⟨checkEtAlMisuse_error_iff cite r, checkEtAlMisuse_warning_iff cite r, ?_⟩
  rintro ⟨c1, f1, c2, f2, h1, h2⟩
  rw [h1] at h2
  cases h2

/-! ## Claim C6: duplicate detection -/

/-- The pair predicate of C6, stated declaratively: both texts non-empty,
length ratio at least 0.6, full-text similarity strictly above 0.85; the
report names the later entry as a duplicate of the earlier one and carries
`round(ratio*100, 1)`. -/
def dupSpecPair (p : (List Char × List Char) × (List Char × List Char)) : Option DupEntry :=
  if p.1.2.length ≠ 0 ∧ p.2.2.length ≠ 0 ∧
      ¬(((min p.1.2.length p.2.2.length : ℚ) / (max p.1.2.length p.2.2.length)) < 3/5) ∧
      Difflib.ratio p.1.2 p.2.2 > 17/20 then
    some ⟨p.2.1, p.2.2.take 100, p.1.1, round1 (Difflib.ratio p.1.2 p.2.2 * 100)⟩
  else none

/-- All index-ordered pairs (`i < j`) of a list, in loop order. -/
def orderedPairs : List α → List (α × α)
  | [] => []
  | x :: rest => rest.map (fun y => (x, y)) ++ orderedPairs rest

theorem dupPair_eq_spec (x y : List Char × List Char) :
    dupPair x y = dupSpecPair (x, y) := by
  unfold dupPair dupSpecPair
  by_cases h1 : x.2.length = 0 ∨ y.2.length = 0
  · rw [if_pos (by simpa using h1), if_neg (by rcases h1 with h | h <;> simp [h])]
  · push_neg at h1
    rw [if_neg (by simpa using h1)]
    by_cases h2 : ((min x.2.length y.2.length : ℚ) / (max x.2.length y.2.length)) < 3/5
    · rw [if_pos h2, if_neg (by rintro ⟨_, _, hn, _⟩; exact hn h2)]
    · rw [if_neg h2]
      by_cases h3 : Difflib.ratio x.2 y.2 > 17/20
      · rw [if_pos h3, if_pos ⟨h1.1, h1.2, h2, h3⟩]
      · rw [if_neg h3, if_neg (by rintro ⟨_, _, _, hr⟩; exact h3 hr)]

/-- C6: `find_duplicates` reports exactly the index-ordered pairs with
non-empty texts, length ratio ≥ 0.6 and full-text ratio > 0.85, in loop
order, each carrying `round(ratio*100, 1)` as score — and membership in the
result is equivalent to being such a pair. -/
theorem c6_findDuplicates :
    (∀ refs : List (List Char × List Char),
      findDuplicatesAPA refs = (orderedPairs refs).filterMap dupSpecPair) ∧
    (∀ (refs : List (List Char × List Char)) (d : DupEntry),
      d ∈ findDuplicatesAPA refs ↔
        ∃ p ∈ orderedPairs refs, dupSpecPair p = some d) := by
  have hmain : ∀ refs : List (List Char × List Char),
      findDuplicatesAPA refs = (orderedPairs refs).filterMap dupSpecPair := by
    intro refs
    induction refs with
    | nil => rfl
    | cons x rest ih =>
      rw [findDuplicatesAPA, orderedPairs, List.filterMap_append, ih, List.filterMap_map]
      congr 1
      apply List.filterMap_congr
      intro y _
      exact dupPair_eq_spec x y
  refine ⟨hmain, ?_⟩
  intro refs d
  rw [hmain refs]
  simp [List.mem_filterMap]

/-!
## Referencenumvalidation.py: the document model

A `.docx` document is modelled as the ordered list of its body paragraphs.
A paragraph carries its style name and its runs; a run carries its text,
its character-style name and its superscript flag — the only properties the
program ever reads.  Tables are not modelled: for the table-free documents
considered here `doc.paragraphs` and `iter_document_paragraphs` yield the
same paragraph sequence, in body order.
-/

/-- A text run (`run.text`, `run.style.name`, `run.font.superscript`). -/
structure Run where
  text : List Char
  style : Option (List Char)
  superscript : Bool
deriving DecidableEq

/-- A paragraph (`para.style.name`, `para.runs`). -/
structure Paragraph where
  style : Option (List Char)
  runs : List Run
deriving DecidableEq

/-- A document: its body paragraphs in order. -/
structure Document where
  body : List Paragraph
deriving DecidableEq

/-- `para.text`: concatenation of the run texts. -/
def paraText (p : Paragraph) : List Char :=
  (p.runs.map Run.text).flatten

/-- The empty paragraph (used as the default of index lookups that are
always in range). -/
def defaultPara : Paragraph :=
  ⟨none, []⟩

/-- The character class `[\d,\-–—\s]` of the citation patterns. -/
def isCiteChar (c : Char) : Bool :=
  isPyDigit c || c = ',' || isDash c || isPySpace c

/-- `is_citation_run` (lines 105–119): a `cite_bib`-styled run, or a
superscript run whose stripped text is non-empty and matches
`^[\d,\-–—\s]+$`. -/
def isCitationRun (r : Run) : Bool :=
  (r.style == some ("cite_bib".toList)) ||
    (r.superscript &&
      (let t := pyStrip r.text
       !t.isEmpty && t.all isCiteChar))

/-! ### `get_references_in_bibliography` (lines 126–162) -/

/-- The inner run scan: the first `bib_number`-styled run whose text
yields numbers, together with its index.  A styled run without numbers
does not break the loop. -/
def findBibRun : Nat → List Run → Option (Nat × Int)
  | _, [] => none
  | i, r :: rs =>
    if r.style == some ("bib_number".toList) then
      match getNumbers r.text with
      | n :: _ => some (i, n)
      | [] => findBibRun (i + 1) rs
    else findBibRun (i + 1) rs

/-- The fallback `re.match(r'^(\d+)', para.text.strip())`. -/
def leadingNumber (t : List Char) : Option Int :=
  match takeDigits (pyStrip t) with
  | ([], _) => none
  | (d :: ds, _) => some (Int.ofNat (digitsVal (d :: ds)))

/-- One bibliography object: the found id, the paragraph's body index,
and the index of the styled `bib_number` run when one was found. -/
structure RefObj where
  id : Int
  paraIdx : Nat
  runIdx : Option Nat
deriving DecidableEq

/-- Per-paragraph step of `get_references_in_bibliography`: only `REF-N`
paragraphs participate; the styled run wins over the leading-digit
fallback. -/
def paraRefObj (i : Nat) (p : Paragraph) : Option RefObj :=
  if p.style == some ("REF-N".toList) then
    match findBibRun 0 p.runs with
    | some (ri, n) => some ⟨n, i, some ri⟩
    | none =>
      match leadingNumber (paraText p) with
      | some n => some ⟨n, i, none⟩
      | none => none
  else none

/-- `ref_objects`: the bibliography objects in body order (paragraphs and
runs are kept as indices). -/
def refObjects (d : Document) : List RefObj :=
  d.body.enum.filterMap (fun q => paraRefObj q.1 q.2)

/-- `refs_found`: the set of bibliography ids (as a duplicate-free list;
only membership, cardinality and sorted order are ever consumed). -/
def refsFound (d : Document) : List Int :=
  ((refObjects d).map RefObj.id).dedup

/-! ### `get_citations_in_text` (lines 164–217) -/

/-- `citation_pattern.findall(text)` for `\^([\d,\-–—\s]+)\^`, each
captured group already parsed with `get_numbers`; matches are leftmost
and non-overlapping (`^` is not a body character, so a failed opener is
simply skipped).  Fuel bounds the characters inspected. -/
def fallbackCitesAux : Nat → List Char → List Int
  | 0, _ => []
  | _ + 1, [] => []
  | f + 1, c :: cs =>
    if c = '^' then
      let body := cs.takeWhile isCiteChar
      match cs.dropWhile isCiteChar with
      | '^' :: rest =>
        if body.isEmpty then fallbackCitesAux f cs
        else getNumbers body ++ fallbackCitesAux f rest
      | _ => fallbackCitesAux f cs
    else fallbackCitesAux f cs

/-- All fallback citations of a run's text. -/
def fallbackCites (t : List Char) : List Int :=
  fallbackCitesAux (t.length + 1) t

/-- The run loop of `get_citations_in_text` for one paragraph:
consecutive citation runs accumulate into a group whose concatenated text
is parsed on flush; a non-citation run flushes the group and is scanned
with the fallback pattern; a trailing group is flushed at the end.
(`get_numbers` of an empty accumulator is `[]`, which also covers the
not-yet-started group.) -/
def paraCitationsAux : List Run → List Char → List Int
  | [], acc => getNumbers acc
  | r :: rs, acc =>
    if isCitationRun r then paraCitationsAux rs (acc ++ r.text)
    else getNumbers acc ++ fallbackCites r.text ++ paraCitationsAux rs []

/-- All citation ids contributed by one paragraph, in order. -/
def paraCitations (p : Paragraph) : List Int :=
  paraCitationsAux p.runs []

/-- `all_cited_ids`: every citation id in document order, duplicates
kept. -/
def allCited (d : Document) : List Int :=
  (d.body.map paraCitations).flatten

/-- The `seen`-set scanner shared by `appearance_order` and the sequence
walk: keep each id's first occurrence. -/
def firstDedupAux : List Int → List Int → List Int
  | [], _ => []
  | n :: rest, seen =>
    if n ∈ seen then firstDedupAux rest seen
    else n :: firstDedupAux rest (seen ++ [n])

/-- `appearance_order`: distinct cited ids in order of first
appearance. -/
def appearanceOrder (d : Document) : List Int :=
  firstDedupAux (allCited d) []

/-! ### `ReferenceProcessor.find_duplicates` (lines 219–286) -/

/-- The suffix handling of the numbering regex: the optional `]` and the
trailing `[\.\s]*` after the digit run. -/
def stripAfterDigits (rest : List Char) : List Char :=
  (match rest with
   | ']' :: r => r
   | _ => rest).dropWhile (fun c => c = '.' || isPySpace c)

/-- `re.sub(r'^\[?\d+\]?[\.\s]*', '', t)`: drop an optional leading `[`,
a non-empty digit run, an optional `]` and trailing dots/whitespace; the
identity when no digit run follows the optional bracket (a leading `[`
is itself no digit, so the empty-bracket alternative fails too). -/
def stripLeadingNumbering (t : List Char) : List Char :=
  match t with
  | '[' :: ts =>
    (match takeDigits ts with
     | ([], _) => t
     | (_ :: _, rest) => stripAfterDigits rest)
  | _ =>
    (match takeDigits t with
     | ([], _) => t
     | (_ :: _, rest) => stripAfterDigits rest)

/-- The preprocessing loop of `find_duplicates`: `(id, clean_text)` for
each bibliography object. -/
def processedRefs (d : Document) : List (Int × List Char) :=
  (refObjects d).map (fun o =>
    (o.id, stripLeadingNumbering (pyStrip (paraText (d.body.getD o.paraIdx defaultPara)))))

/-- One duplicate report of the numeric module (`id`, truncated text with
the `"..."` suffix, `duplicate_of`, `score`). -/
structure NumDupEntry where
  id : Int
  text : List Char
  duplicateOf : Int
  score : ℚ
deriving DecidableEq

/-- The guarded inner-pair body of the numeric `find_duplicates`: skip
empty texts, skip a length ratio below 0.6, skip when either cheap upper
bound (`real_quick_ratio`, then `quick_ratio`) is below 0.85, and report
when the full ratio exceeds 0.85. -/
def numDupPair (ra rb : Int × List Char) : Option NumDupEntry :=
  if ra.2.length = 0 || rb.2.length = 0 then none
  else if ((min ra.2.length rb.2.length : ℚ) / (max ra.2.length rb.2.length)) < 3/5 then
    none
  else if Difflib.realQuickRatio ra.2 rb.2 < 17/20 then none
  else if Difflib.quickRatio ra.2 rb.2 < 17/20 then none
  else if Difflib.ratio ra.2 rb.2 > 17/20 then
    some ⟨rb.1, rb.2.take 100 ++ ("...".toList), ra.1,
      round1 (Difflib.ratio ra.2 rb.2 * 100)⟩
  else none

/-- The same pair body with the two quick-ratio guards removed. -/
def numDupPairUnguarded (ra rb : Int × List Char) : Option NumDupEntry :=
  if ra.2.length = 0 || rb.2.length = 0 then none
  else if ((min ra.2.length rb.2.length : ℚ) / (max ra.2.length rb.2.length)) < 3/5 then
    none
  else if Difflib.ratio ra.2 rb.2 > 17/20 then
    some ⟨rb.1, rb.2.take 100 ++ ("...".toList), ra.1,
      round1 (Difflib.ratio ra.2 rb.2 * 100)⟩
  else none

/-- `ReferenceProcessor.find_duplicates`: the forward-only double loop
with the performance guards. -/
def numFindDuplicates : List (Int × List Char) → List NumDupEntry
  | [] => []
  | x :: rest => rest.filterMap (numDupPair x) ++ numFindDuplicates rest

/-- The guard-free variant of the double loop. -/
def numFindDuplicatesUnguarded : List (Int × List Char) → List NumDupEntry
  | [] => []
  | x :: rest => rest.filterMap (numDupPairUnguarded x) ++ numFindDuplicatesUnguarded rest

/-! ### `get_validation_stats` (lines 288–331) -/

/-- One sequence issue (`position`, `current`, `expected`; the recorded
position always equals the expected value `len(seen_in_seq) + 1`). -/
structure SeqIssue where
  position : Nat
  current : Int
  expected : Nat
deriving DecidableEq

/-- The sequence walk: each newly-seen id `n` with
`n ≠ len(seen_in_seq) + 1` records a gap; `seen_in_seq` collects the
distinct ids in order.  (The `previous_max` bookkeeping of the source has
no observable effect and is omitted.) -/
def seqIssuesAux : List Int → List Int → List SeqIssue
  | [], _ => []
  | n :: rest, seen =>
    if n ∈ seen then seqIssuesAux rest seen
    else
      (if n = (seen.length : Int) + 1 then []
       else [⟨seen.length + 1, n, seen.length + 1⟩]) ++
        seqIssuesAux rest (seen ++ [n])

/-- The validation-stats record. -/
structure Stats where
  totalReferences : Nat
  totalCitations : Nat
  missingReferences : List Int
  unusedReferences : List Int
  duplicateReferences : List NumDupEntry
  sequenceIssues : List SeqIssue
  isPerfect : Bool
deriving DecidableEq

/-- `get_validation_stats`: set differences for missing/unused (sorted),
the shared duplicate detection over the cleaned bibliography texts, the
sequence walk, and the perfection flag. -/
def getValidationStats (d : Document) : Stats :=
  let bibRefs := refsFound d
  let cited := allCited d
  let uniqueCited := cited.dedup
  let missing := sortInts (uniqueCited.filter (fun n => decide (n ∉ bibRefs)))
  let unused := sortInts (bibRefs.filter (fun n => decide (n ∉ uniqueCited)))
  let duplicates := numFindDuplicates (processedRefs d)
  let seq := seqIssuesAux cited []
  ⟨bibRefs.length, cited.length, missing, unused, duplicates, seq,
    missing.isEmpty && unused.isEmpty && seq.isEmpty && duplicates.isEmpty⟩

/-! ### `renumber` (lines 333–525) -/

/-- `mapping.get(n, n)` on the association-list model of the dict. -/
def applyMapping (m : List (Int × Int)) (n : Int) : Int :=
  match m.find? (fun p => p.1 == n) with
  | some p => p.2
  | none => n

/-- The mapping-creation loop: sequential new ids `1, 2, …` along the
appearance order (whose entries are distinct, so the association list is
a faithful dict). -/
def mkMapping (appearance : List Int) : List (Int × Int) :=
  appearance.enum.map (fun q => (q.2, (q.1 : Int) + 1))

/-- Openers of `citation_pattern` (group 1: `\^|\[|\(`). -/
def isOpener (c : Char) : Bool :=
  c = '^' || c = '[' || c = '('

/-- Closers of `citation_pattern` (group 3: `\^|\]|\)`). -/
def isCloser (c : Char) : Bool :=
  c = '^' || c = ']' || c = ')'

/-- `citation_pattern.search` for `(\^|\[|\()([\d,\-–—\s]+)(\^|\]|\))`:
the leftmost opener followed by a non-empty run of body characters and a
closer; returns `(prefix, group 2, suffix)`.  Body characters are
disjoint from openers and closers, so the greedy group cannot backtrack
into a success and a failed opener is simply skipped. -/
def findCitePatternAux : List Char → List Char → Option (List Char × List Char × List Char)
  | _, [] => none
  | acc, c :: cs =>
    if isOpener c then
      let body := cs.takeWhile isCiteChar
      match cs.dropWhile isCiteChar with
      | d :: rest =>
        if isCloser d && !body.isEmpty then some (acc.reverse, body, rest)
        else findCitePatternAux (c :: acc) cs
      | [] => findCitePatternAux (c :: acc) cs
    else findCitePatternAux (c :: acc) cs

/-- First citation-pattern match of a text. -/
def findCitePattern (t : List Char) : Option (List Char × List Char × List Char) :=
  findCitePatternAux [] t

/-- The citation-rewriting pass on one run: split at the first
citation-pattern match into the pre text (keeping the run's properties),
a `cite_bib` superscript run holding the renumbered, reformatted ids, and
the post text (a fresh run inheriting the style, processed next — the
`i += 2` step of the while loop); without a match, an `is_citation_run`
run with numbers is renumbered in place and restyled.  Fuel bounds the
processed text length (each match consumes the opener, body and
closer). -/
def processRunAux (m : List (Int × Int)) : Nat → Run → List Run
  | 0, r => [r]
  | f + 1, r =>
    match findCitePattern r.text with
    | some (pre, body, post) =>
      ⟨pre, r.style, r.superscript⟩ ::
        ⟨formatNumbers ((getNumbers body).map (applyMapping m)),
          some ("cite_bib".toList), true⟩ ::
        (if post.isEmpty then [] else processRunAux m f ⟨post, r.style, false⟩)
    | none =>
      if isCitationRun r then
        match getNumbers r.text with
        | [] => [r]
        | n :: ns =>
          [⟨formatNumbers ((n :: ns).map (applyMapping m)),
            some ("cite_bib".toList), true⟩]
      else [r]

/-- The run pass at its fuel. -/
def processRun (m : List (Int × Int)) (r : Run) : List Run :=
  processRunAux m (r.text.length + 1) r

/-- Phase 1 of `renumber` on one paragraph. -/
def processPara (m : List (Int × Int)) (p : Paragraph) : Paragraph :=
  ⟨p.style, (p.runs.map (processRun m)).flatten⟩

/-- `obj['run'].text = str(obj['new_id'])`: rewrite the styled
`bib_number` run of a cited bibliography paragraph. -/
def updateBibRun (body : List Paragraph) (o : RefObj) (newId : Int) : Paragraph :=
  let p := body.getD o.paraIdx defaultPara
  match o.runIdx with
  | none => p
  | some ri =>
    ⟨p.style,
      p.runs.enum.map (fun q =>
        if q.1 = ri then ⟨intToChars newId, q.2.style, q.2.superscript⟩ else q.2)⟩

/-- The document side of `renumber`: phase 1 rewrites every citation,
phase 2 recomputes the bibliography objects, splits them into cited and
uncited, removes them all and reinserts — cited first, stably sorted by
new id with ids rewritten, then uncited — at the anchor (the minimum
original index, below which no paragraph was removed).  With no
bibliography objects the reordering is skipped (the source's early
return; its unreachable no-anchor return is not modelled, every object
index being valid here). -/
def renumberedBody (d : Document) : List Paragraph :=
  let mapping := mkMapping (appearanceOrder d)
  let body1 := d.body.map (processPara mapping)
  let objs := refObjects ⟨body1⟩
  if objs.isEmpty then body1
  else
    let citedRefs := objs.filter (fun o => (mapping.find? (fun p => p.1 == o.id)).isSome)
    let uncitedRefs := objs.filter (fun o => !(mapping.find? (fun p => p.1 == o.id)).isSome)
    let indices := objs.map RefObj.paraIdx
    let anchor := indices.foldr min body1.length
    let citedSorted := List.insertionSort
      (fun a b => applyMapping mapping a.id ≤ applyMapping mapping b.id) citedRefs
    let kept := body1.enum.filterMap
      (fun q => if q.1 ∈ indices then none else some q.2)
    let citedParas := citedSorted.map (fun o => updateBibRun body1 o (applyMapping mapping o.id))
    let uncitedParas := uncitedRefs.map (fun o => body1.getD o.paraIdx defaultPara)
    kept.take anchor ++ citedParas ++ uncitedParas ++ kept.drop anchor

/-- `renumber`: the mutated document together with the returned mapping
(every return path of the source returns the same `mapping`). -/
def renumber (d : Document) : Document × List (Int × Int) :=
  (⟨renumberedBody d⟩, mkMapping (appearanceOrder d))

/-! ### `process_document` (lines 528–571) -/

/-- `process_document`: validate; abort on unused references; stop on a
perfect document; abort on missing references; otherwise renumber,
re-validate and report.  Returns
`(doc, before_stats, after_stats, mapping, status_msg)`. -/
def processDocument (d : Document) :
    Document × Stats × Stats × List (Int × Int) × List Char :=
  let before := getValidationStats d
  if !before.unusedReferences.isEmpty then
    (d, before, before, [],
      ("Aborted: Document validation failed due to unused references.".toList))
  else if before.isPerfect then
    (d, before, before, [], ("Validation completed.".toList))
  else if !before.missingReferences.isEmpty then
    (d, before, before, [], ("Aborted: Missing references detected.".toList))
  else
    let res := renumber d
    let after := getValidationStats res.1
    let changesMade := res.2.any (fun p => p.1 != p.2)
    let msg :=
      if !before.duplicateReferences.isEmpty then
        (if changesMade then ("Renumbering".toList) else ("Validation".toList)) ++
          (" completed with ".toList) ++ natToChars before.duplicateReferences.length ++
          (" duplicate".toList) ++
          (if before.duplicateReferences.length > 1 then ("s.".toList) else (".".toList))
      else if changesMade then ("Renumbering completed successfully.".toList)
      else ("Validation completed.".toList)
    (res.1, before, after, res.2, msg)

/-! ## Unfolding lemmas for the stats record and the gate -/

theorem getValidationStats_missing (d : Document) :
    (getValidationStats d).missingReferences =
      sortInts ((allCited d).dedup.filter (fun n => decide (n ∉ refsFound d))) := rfl

theorem getValidationStats_unused (d : Document) :
    (getValidationStats d).unusedReferences =
      sortInts ((refsFound d).filter (fun n => decide (n ∉ (allCited d).dedup))) := rfl

theorem getValidationStats_duplicates (d : Document) :
    (getValidationStats d).duplicateReferences =
      numFindDuplicates (processedRefs d) := rfl

theorem getValidationStats_seq (d : Document) :
    (getValidationStats d).sequenceIssues = seqIssuesAux (allCited d) [] := rfl

theorem getValidationStats_isPerfect (d : Document) :
    (getValidationStats d).isPerfect =
      ((getValidationStats d).missingReferences.isEmpty &&
        (getValidationStats d).unusedReferences.isEmpty &&
        (getValidationStats d).sequenceIssues.isEmpty &&
        (getValidationStats d).duplicateReferences.isEmpty) := rfl

theorem processDocument_unused_branch (d : Document)
    (h : (getValidationStats d).unusedReferences ≠ []) :
    processDocument d = (d, getValidationStats d, getValidationStats d, [],
      ("Aborted: Document validation failed due to unused references.".toList)) := by
  have hie : (getValidationStats d).unusedReferences.isEmpty = false := by
    cases hc : (getValidationStats d).unusedReferences with
    | nil => exact absurd hc h
    | cons a t => rfl
  simp only [processDocument, hie, Bool.not_false, if_true]

theorem processDocument_perfect_branch (d : Document)
    (h : (getValidationStats d).isPerfect = true) :
    processDocument d = (d, getValidationStats d, getValidationStats d, [],
      ("Validation completed.".toList)) := by
  have hu : (getValidationStats d).unusedReferences.isEmpty = true := by
    have h' := h
    rw [getValidationStats_isPerfect, Bool.and_eq_true, Bool.and_eq_true,
      Bool.and_eq_true] at h'
    exact h'.1.1.2
  simp only [processDocument, hu, Bool.not_true, Bool.false_eq_true, if_false, h, if_true]

theorem processDocument_missing_branch (d : Document)
    (h1 : (getValidationStats d).unusedReferences = [])
    (h2 : (getValidationStats d).isPerfect = false)
    (h3 : (getValidationStats d).missingReferences ≠ []) :
    processDocument d = (d, getValidationStats d, getValidationStats d, [],
      ("Aborted: Missing references detected.".toList)) := by
  have hu : (getValidationStats d).unusedReferences.isEmpty = true := by
    rw [h1]; rfl
  have hm : (getValidationStats d).missingReferences.isEmpty = false := by
    cases hc : (getValidationStats d).missingReferences with
    | nil => exact absurd hc h3
    | cons a t => rfl
  simp only [processDocument, hu, Bool.not_true, Bool.false_eq_true, if_false, h2, hm, Bool.not_false, if_true]

theorem processDocument_renumber_branch (d : Document)
    (h1 : (getValidationStats d).unusedReferences = [])
    (h2 : (getValidationStats d).isPerfect = false)
    (h3 : (getValidationStats d).missingReferences = []) :
    (processDocument d).1 = (renumber d).1 ∧
    (processDocument d).2.2.2.1 = mkMapping (appearanceOrder d) := by
  have hu : (getValidationStats d).unusedReferences.isEmpty = true := by
    rw [h1]; rfl
  have hm : (getValidationStats d).missingReferences.isEmpty = true := by
    rw [h3]; rfl
  simp only [processDocument, hu, Bool.not_true, Bool.false_eq_true, if_false, h2, hm]
  exact ⟨trivial, rfl⟩

/-! ## Claim C1: the unused-references gate -/

/-- C1: if validation finds a non-empty set of unused references,
`process_document` aborts before renumbering — it returns the document
itself (no paragraph text rewritten, none moved or removed), the empty
mapping, the abort status, and the before-stats in both stats slots. -/
theorem c1_unused_gate (d : Document)
    (h : (getValidationStats d).unusedReferences ≠ []) :
    (processDocument d).1 = d ∧
    (processDocument d).2.2.2.1 = [] ∧
    (processDocument d).2.2.2.2 =
      ("Aborted: Document validation failed due to unused references.".toList) ∧
    (processDocument d).2.1 = getValidationStats d ∧
    (processDocument d).2.2.1 = getValidationStats d := by
  rw [processDocument_unused_branch d h]
  exact ⟨rfl, rfl, rfl, rfl, rfl⟩

/-- A one-paragraph bibliography (`1. X`) with no citations: reference 1
is unused. -/
def c1Doc : Document :=
  ⟨[⟨some ("REF-N".toList), [⟨("1. X".toList), none, false⟩]⟩]⟩

theorem c1_unused_gate_witness :
    (getValidationStats c1Doc).unusedReferences ≠ [] ∧
    (processDocument c1Doc).1 = c1Doc ∧ (processDocument c1Doc).2.2.2.1 = [] :=
  ⟨by decide, (c1_unused_gate c1Doc (by decide)).1, (c1_unused_gate c1Doc (by decide)).2.1⟩

/-! ## Claim C2: the renumbering mapping is a first-appearance bijection -/

theorem mkMapping_map_fst (l : List Int) : (mkMapping l).map Prod.fst = l := by
  unfold mkMapping
  rw [List.map_map]
  exact List.enum_map_snd l

theorem mkMapping_map_snd (l : List Int) :
    (mkMapping l).map Prod.snd = (List.range l.length).map (fun i => Int.ofNat i + 1) := by
  unfold mkMapping
  rw [List.map_map]
  show l.enum.map ((fun i : Nat => Int.ofNat i + 1) ∘ Prod.fst) = _
  rw [← List.map_map, List.enum_map_fst]

theorem firstDedupAux_nodup (l : List Int) :
    ∀ seen, (firstDedupAux l seen).Nodup ∧ ∀ x ∈ firstDedupAux l seen, x ∉ seen := by
  induction l with
  | nil => intro seen; exact ⟨List.nodup_nil, by intro x hx; cases hx⟩
  | cons n rest ih =>
    intro seen
    by_cases hn : n ∈ seen
    · rw [firstDedupAux, if_pos hn]; exact ih seen
    · rw [firstDedupAux, if_neg hn]
      obtain ⟨h1, h2⟩ := ih (seen ++ [n])
      constructor
      · refine List.nodup_cons.mpr ⟨?_, h1⟩
        intro hmem
        exact h2 n hmem (by simp)
      · intro x hx
        rcases List.mem_cons.mp hx with rfl | hx'
        · exact hn
        · intro hxseen
          exact h2 x hx' (by simp [hxseen])

theorem mem_firstDedupAux (l : List Int) :
    ∀ seen x, x ∈ firstDedupAux l seen ↔ x ∈ l ∧ x ∉ seen := by
  induction l with
  | nil => intro seen x; simp [firstDedupAux]
  | cons n rest ih =>
    intro seen x
    by_cases hn : n ∈ seen
    · rw [firstDedupAux, if_pos hn, ih]
      constructor
      · rintro ⟨hx, hxs⟩; exact ⟨List.mem_cons_of_mem _ hx, hxs⟩
      · rintro ⟨hx, hxs⟩
        rcases List.mem_cons.mp hx with rfl | hx'
        · exact absurd hn hxs
        · exact ⟨hx', hxs⟩
    · rw [firstDedupAux, if_neg hn]
      constructor
      · intro hx
        rcases List.mem_cons.mp hx with rfl | hx'
        · exact ⟨List.mem_cons_self _ _, hn⟩
        · obtain ⟨ha, hb⟩ := (ih _ x).mp hx'
          exact ⟨List.mem_cons_of_mem _ ha, fun hxs => hb (by simp [hxs])⟩
      · rintro ⟨hx, hxs⟩
        rcases List.mem_cons.mp hx with rfl | hx'
        · exact List.mem_cons_self _ _
        · by_cases hxn : x = n
          · subst hxn; exact List.mem_cons_self _ _
          · exact List.mem_cons_of_mem _ ((ih _ x).mpr ⟨hx', by simp [hxs, hxn]⟩)

/-- C2: whenever the safety gate passes, the computed mapping lists the
distinct cited numbers (no duplicates, in order of first appearance, with
exactly the cited numbers as keys) paired with the new ids `1, 2, …, N` in
order — a bijection from the distinct cited numbers onto `{1..N}`; a
repeated number consumes no new slot, so appearance scan `[5, 2, 2, 9]`
yields exactly `{5 ↦ 1, 2 ↦ 2, 9 ↦ 3}`. -/
theorem c2_mapping_bijection (d : Document)
    (h1 : (getValidationStats d).unusedReferences = [])
    (h2 : (getValidationStats d).isPerfect = false)
    (h3 : (getValidationStats d).missingReferences = []) :
    (processDocument d).2.2.2.1 = mkMapping (appearanceOrder d) ∧
    ((processDocument d).2.2.2.1).map Prod.fst = appearanceOrder d ∧
    (appearanceOrder d).Nodup ∧
    (∀ x, x ∈ appearanceOrder d ↔ x ∈ allCited d) ∧
    ((processDocument d).2.2.2.1).map Prod.snd =
      (List.range (appearanceOrder d).length).map (fun i => Int.ofNat i + 1) ∧
    mkMapping (firstDedupAux [5, 2, 2, 9] []) = [(5, 1), (2, 2), (9, 3)] := by
  obtain ⟨-, hmap⟩ := processDocument_renumber_branch d h1 h2 h3
  rw [hmap]
  refine ⟨rfl, mkMapping_map_fst _, (firstDedupAux_nodup (allCited d) []).1, ?_,
    mkMapping_map_snd _, by decide⟩
  intro x
  show x ∈ firstDedupAux (allCited d) [] ↔ _
  rw [mem_firstDedupAux]
  simp

/-- A gate-passing document: citations `2` then `1`, bibliography `1`, `2`
(no unused, no missing, out of sequence so not perfect). -/
def c2Doc : Document :=
  ⟨[⟨none, [⟨("A".toList), none, false⟩, ⟨("2".toList), none, true⟩,
            ⟨(" and ".toList), none, false⟩, ⟨("1".toList), none, true⟩]⟩,
    ⟨some ("REF-N".toList), [⟨("1. Alpha".toList), none, false⟩]⟩,
    ⟨some ("REF-N".toList), [⟨("2. Beta".toList), none, false⟩]⟩]⟩

theorem c2_mapping_bijection_witness :
    ((getValidationStats c2Doc).unusedReferences = [] ∧
      (getValidationStats c2Doc).isPerfect = false ∧
      (getValidationStats c2Doc).missingReferences = []) ∧
    (processDocument c2Doc).2.2.2.1 = mkMapping (appearanceOrder c2Doc) :=
  ⟨⟨by decide, by decide, by decide⟩,
    (c2_mapping_bijection c2Doc (by decide) (by decide) (by decide)).1⟩

/-! ## Claim C8: the validation statistics -/

/-- The declarative sequence-gap reading: along the distinct cited ids in
first-appearance order, the `k`-th id (0-based `k`, i.e. `k` distinct ids
seen before it) records a gap exactly when it differs from `k + 1`. -/
def seqGapsFrom : Nat → List Int → List SeqIssue
  | _, [] => []
  | k, v :: vs =>
    (if v = (k : Int) + 1 then [] else [⟨k + 1, v, k + 1⟩]) ++ seqGapsFrom (k + 1) vs

theorem seqIssuesAux_eq_gaps (l : List Int) : ∀ seen : List Int,
    seqIssuesAux l seen = seqGapsFrom seen.length (firstDedupAux l seen) := by
  induction l with
  | nil => intro seen; rfl
  | cons n rest ih =>
    intro seen
    by_cases hn : n ∈ seen
    · rw [seqIssuesAux, if_pos hn, firstDedupAux, if_pos hn]
      exact ih seen
    · rw [seqIssuesAux, if_neg hn, firstDedupAux, if_neg hn, seqGapsFrom, ih (seen ++ [n])]
      simp [List.length_append]

theorem sortInts_sorted_lt {l : List Int} (h : l.Nodup) :
    (sortInts l).Sorted (· < ·) := by
  have hs : (sortInts l).Sorted (· ≤ ·) := List.sorted_insertionSort (· ≤ ·) l
  have hn : (sortInts l).Nodup := ((List.perm_insertionSort (· ≤ ·) l).nodup_iff).mpr h
  exact hs.lt_of_le hn

theorem sortInts_toFinset (l : List Int) : (sortInts l).toFinset = l.toFinset := by
  ext x
  rw [List.mem_toFinset, List.mem_toFinset]
  exact (List.perm_insertionSort (· ≤ ·) l).mem_iff

/-- C8: `missing` is the sorted, duplicate-free list of the set difference
cited − bib, `unused` the sorted set difference bib − cited; the sequence
issues are the gap records of the first-appearance walk; `duplicates` is
the shared duplicate detection on the cleaned bibliography texts; and
`is_perfect` holds iff all four are empty. -/
theorem c8_validation_stats (d : Document) :
    ((getValidationStats d).missingReferences.toFinset =
        (allCited d).toFinset \ (refsFound d).toFinset ∧
      (getValidationStats d).missingReferences.Sorted (· < ·)) ∧
    ((getValidationStats d).unusedReferences.toFinset =
        (refsFound d).toFinset \ (allCited d).toFinset ∧
      (getValidationStats d).unusedReferences.Sorted (· < ·)) ∧
    (getValidationStats d).sequenceIssues =
      seqGapsFrom 0 (firstDedupAux (allCited d) []) ∧
    (getValidationStats d).duplicateReferences = numFindDuplicates (processedRefs d) ∧
    ((getValidationStats d).isPerfect = true ↔
      (getValidationStats d).missingReferences = [] ∧
      (getValidationStats d).unusedReferences = [] ∧
      (getValidationStats d).sequenceIssues = [] ∧
      (getValidationStats d).duplicateReferences = []) := by
  refine ⟨⟨?_, ?_⟩, ⟨?_, ?_⟩, ?_, rfl, ?_⟩
  · rw [getValidationStats_missing, sortInts_toFinset]
    ext x
    simp [List.mem_filter]
  · rw [getValidationStats_missing]
    exact sortInts_sorted_lt ((allCited d).nodup_dedup.filter _)
  · rw [getValidationStats_unused, sortInts_toFinset]
    ext x
    simp [List.mem_filter]
  · rw [getValidationStats_unused]
    exact sortInts_sorted_lt ((((refObjects d).map RefObj.id).nodup_dedup).filter _)
  · rw [getValidationStats_seq]
    exact seqIssuesAux_eq_gaps (allCited d) []
  · rw [getValidationStats_isPerfect]
    simp [List.isEmpty_iff, and_assoc]

/-! ## Claim C9: documents without bibliography paragraphs -/

theorem refObjects_nil (d : Document)
    (h : ∀ p ∈ d.body, p.style ≠ some ("REF-N".toList)) : refObjects d = [] := by
  rw [refObjects, List.filterMap_eq_nil_iff]
  intro q hq
  have hp : q.2 ∈ d.body := by
    have := List.mem_map_of_mem Prod.snd hq
    rwa [List.enum_map_snd] at this
  have hbeq : (q.2.style == some ("REF-N".toList)) = false :=
    beq_eq_false_iff_ne.mpr (h q.2 hp)
  simp only [paraRefObj, hbeq, Bool.false_eq_true, if_false]

/-- C9: if no paragraph has the bibliography style `REF-N`, processing
(a total function here, so exception-free by construction) returns the
empty renumbering mapping. -/
theorem c9_no_bibliography (d : Document)
    (h : ∀ p ∈ d.body, p.style ≠ some ("REF-N".toList)) :
    (processDocument d).2.2.2.1 = [] := by
  have hobj : refObjects d = [] := refObjects_nil d h
  have hbib : refsFound d = [] := by rw [refsFound, hobj]; rfl
  have hproc : processedRefs d = [] := by rw [processedRefs, hobj]; rfl
  have hunused : (getValidationStats d).unusedReferences = [] := by
    rw [getValidationStats_unused, hbib]; rfl
  have hdup : (getValidationStats d).duplicateReferences = [] := by
    rw [getValidationStats_duplicates, hproc]; rfl
  by_cases hc : allCited d = []
  · have hmiss : (getValidationStats d).missingReferences = [] := by
      rw [getValidationStats_missing, hc]; rfl
    have hseq : (getValidationStats d).sequenceIssues = [] := by
      rw [getValidationStats_seq, hc]; rfl
    have hperf : (getValidationStats d).isPerfect = true := by
      rw [getValidationStats_isPerfect, hmiss, hunused, hseq, hdup]; rfl
    rw [processDocument_perfect_branch d hperf]
  · have hmiss : (getValidationStats d).missingReferences ≠ [] := by
      rw [getValidationStats_missing, hbib]
      have hfil : (allCited d).dedup.filter (fun n => decide (n ∉ ([] : List Int))) =
          (allCited d).dedup :=
        List.filter_eq_self.mpr (fun a _ => by simp)
      rw [hfil]
      intro hsort
      have hdne : (allCited d).dedup ≠ [] := fun hd => hc ((List.dedup_eq_nil _).mp hd)
      have hlen := (List.perm_insertionSort (· ≤ ·) (allCited d).dedup).length_eq
      rw [show sortInts (allCited d).dedup =
        List.insertionSort (· ≤ ·) (allCited d).dedup from rfl] at hsort
      rw [hsort] at hlen
      exact hdne (List.eq_nil_of_length_eq_zero hlen.symm)
    have hperf : (getValidationStats d).isPerfect = false := by
      rw [getValidationStats_isPerfect]
      have hie : (getValidationStats d).missingReferences.isEmpty = false := by
        cases hm : (getValidationStats d).missingReferences with
        | nil => exact absurd hm hmiss
        | cons a t => rfl
      rw [hie, Bool.false_and, Bool.false_and, Bool.false_and]
    rw [processDocument_missing_branch d hunused hperf hmiss]

/-- A document with text but no `REF-N` paragraph. -/
def c9Doc : Document :=
  ⟨[⟨none, [⟨("hello".toList), none, false⟩]⟩]⟩

theorem c9_no_bibliography_witness :
    (∀ p ∈ c9Doc.body, p.style ≠ some ("REF-N".toList)) ∧
    (processDocument c9Doc).2.2.2.1 = [] :=
  ⟨by decide, c9_no_bibliography c9Doc (by decide)⟩

/-! ## Claim C10: the quick-ratio guards are sound -/

theorem numDupPair_eq_unguarded (ra rb : Int × List Char) :
    numDupPair ra rb = numDupPairUnguarded ra rb := by
  unfold numDupPair numDupPairUnguarded
  have hq := Difflib.ratio_le_quickRatio ra.2 rb.2
  have hr := Difflib.quickRatio_le_realQuickRatio ra.2 rb.2
  split_ifs <;> first
    | rfl
    | (exfalso; linarith)

/-- C10: the two cheap short-circuit guards of the numeric
`find_duplicates` never change its result — the guarded loop equals the
guard-free loop on every input (so it reports exactly the pairs whose
full ratio exceeds 0.85) — because each quick ratio is an upper bound on
the full ratio. -/
theorem c10_guards_sound :
    (∀ refs : List (Int × List Char),
      numFindDuplicates refs = numFindDuplicatesUnguarded refs) ∧
    (∀ a b : List Char,
      Difflib.ratio a b ≤ Difflib.quickRatio a b ∧
      Difflib.quickRatio a b ≤ Difflib.realQuickRatio a b) := by
  constructor
  · intro refs
    induction refs with
    | nil => rfl
    | cons x rest ih =>
      rw [numFindDuplicates, numFindDuplicatesUnguarded, ih]
      congr 1
      exact List.filterMap_congr (fun y _ => numDupPair_eq_unguarded x y)
  · exact fun a b =>
      ⟨Difflib.ratio_le_quickRatio a b, Difflib.quickRatio_le_realQuickRatio a b⟩

end RefEngine
